import Mathlib

/-!
# Token manager of `nats_pubsub` (`auth/token.go`)

A shallow embedding of the credential engine in `src/auth/token.go`:
`NewTokenManager`, `CreateJWT`, `CreateEventToken`, `VerifyJWT` and
`VerifyEventToken`, together with the library routines those five functions
call (`crypto/hmac`, `crypto/sha256`, `encoding/base64`, `time`,
`encoding/json` and `github.com/golang-jwt/jwt`).

Conventions.

* A Go `string` or `[]byte` is a `List UInt8`.
* A `time.Time` is an integer count of nanoseconds on one time line; a clock
  reading (`time.Now()`) is an explicit argument of the function that reads it.
* A Go `error` result is an `Option`/`Except` value.
-/

namespace NatsPubsub

/-! ## Bytes -/

/-- A Go byte string. -/
abbrev Bytes := List UInt8

/-- The bytes of an ASCII literal. -/
def ascii (s : String) : Bytes := s.data.map fun c => UInt8.ofNat c.toNat

/-- Big-endian value of a byte string. -/
def beToNat (bs : Bytes) : Nat := bs.foldl (fun acc b => acc * 256 + b.toNat) 0

/-- Big-endian encoding of `v` on `n` bytes (the low `n` bytes of `v`). -/
def natToBE : Nat → Nat → Bytes
  | 0, _ => []
  | n + 1, v => UInt8.ofNat (v / 256 ^ n % 256) :: natToBE n v

/-- Cut a list into consecutive pieces of `n` elements (the last may be shorter). -/
def chunksOf {α : Type} (n : Nat) : Nat → List α → List (List α)
  | 0, _ => []
  | _, [] => []
  | fuel + 1, x :: xs => (x :: xs).take n :: chunksOf n fuel ((x :: xs).drop n)

/-! ## SHA-2 (FIPS 180-4), as `crypto/sha256` and `crypto/sha512` compute it -/

/-- The parameters that distinguish the members of the SHA-2 family. -/
structure Sha2Params where
  /-- Word size in bits. -/
  wordBits : Nat
  /-- Number of rounds (and of schedule words). -/
  rounds : Nat
  /-- Round constants. -/
  k : List Nat
  /-- Initial hash value. -/
  iv : List Nat
  /-- Rotation and shift amounts of the big sigma 0, big sigma 1, small sigma 0
  and small sigma 1 functions. -/
  bigS0 : Nat × Nat × Nat
  bigS1 : Nat × Nat × Nat
  smallS0 : Nat × Nat × Nat
  smallS1 : Nat × Nat × Nat
  /-- Digest size in bytes. -/
  outBytes : Nat

namespace Sha2Params

/-- Bytes per word. -/
def wordBytes (p : Sha2Params) : Nat := p.wordBits / 8

/-- Bytes per message block. -/
def blockBytes (p : Sha2Params) : Nat := 16 * p.wordBytes

/-- Reduction modulo the word size. -/
def wrap (p : Sha2Params) (x : Nat) : Nat := x % 2 ^ p.wordBits

/-- Rotate a word right. -/
def rotr (p : Sha2Params) (n x : Nat) : Nat :=
  p.wrap ((x >>> n) ||| (x <<< (p.wordBits - n)))

/-- Complement of a word. -/
def compl (p : Sha2Params) (x : Nat) : Nat := (2 ^ p.wordBits - 1) ^^^ x

def ch (p : Sha2Params) (x y z : Nat) : Nat := (x &&& y) ^^^ (p.compl x &&& z)

def maj (x y z : Nat) : Nat := (x &&& y) ^^^ (x &&& z) ^^^ (y &&& z)

/-- A big sigma function: three rotations. -/
def bigSigma (p : Sha2Params) (c : Nat × Nat × Nat) (x : Nat) : Nat :=
  p.rotr c.1 x ^^^ p.rotr c.2.1 x ^^^ p.rotr c.2.2 x

/-- A small sigma function: two rotations and a shift. -/
def smallSigma (p : Sha2Params) (c : Nat × Nat × Nat) (x : Nat) : Nat :=
  p.rotr c.1 x ^^^ p.rotr c.2.1 x ^^^ (x >>> c.2.2)

/-- Extend the message schedule by `n` words. -/
def extend (p : Sha2Params) : Nat → List Nat → List Nat
  | 0, w => w
  | n + 1, w =>
    let t := w.length
    extend p n (w ++ [p.wrap (p.smallSigma p.smallS1 (w.getD (t - 2) 0) + w.getD (t - 7) 0
      + p.smallSigma p.smallS0 (w.getD (t - 15) 0) + w.getD (t - 16) 0)])

/-- The message schedule of one block. -/
def schedule (p : Sha2Params) (block : Bytes) : List Nat :=
  p.extend (p.rounds - 16) ((chunksOf p.wordBytes 16 block).map beToNat)

/-- The eight working variables. -/
structure Vars where
  a : Nat
  b : Nat
  c : Nat
  d : Nat
  e : Nat
  f : Nat
  g : Nat
  h : Nat
deriving DecidableEq

/-- One round of the compression function. -/
def round (p : Sha2Params) (v : Vars) (kw : Nat × Nat) : Vars :=
  let t1 := p.wrap (v.h + p.bigSigma p.bigS1 v.e + p.ch v.e v.f v.g + kw.1 + kw.2)
  let t2 := p.wrap (p.bigSigma p.bigS0 v.a + maj v.a v.b v.c)
  { a := p.wrap (t1 + t2), b := v.a, c := v.b, d := v.c,
    e := p.wrap (v.d + t1), f := v.e, g := v.f, h := v.g }

def Vars.ofList (l : List Nat) : Vars :=
  { a := l.getD 0 0, b := l.getD 1 0, c := l.getD 2 0, d := l.getD 3 0,
    e := l.getD 4 0, f := l.getD 5 0, g := l.getD 6 0, h := l.getD 7 0 }

def Vars.toList (v : Vars) : List Nat := [v.a, v.b, v.c, v.d, v.e, v.f, v.g, v.h]

/-- The compression function: fold one block into the hash value. -/
def compress (p : Sha2Params) (hash : List Nat) (block : Bytes) : List Nat :=
  let v := (p.k.zip (p.schedule block)).foldl p.round (Vars.ofList hash)
  List.zipWith (fun x y => p.wrap (x + y)) hash v.toList

/-- Message padding: a one bit, zeros, and the bit length on two words. -/
def pad (p : Sha2Params) (msg : Bytes) : Bytes :=
  let lenBytes := 2 * p.wordBytes
  let used := (msg.length + 1 + lenBytes) % p.blockBytes
  let zeros := if used = 0 then 0 else p.blockBytes - used
  msg ++ [0x80] ++ List.replicate zeros 0 ++ natToBE lenBytes (8 * msg.length)

/-- The digest of a message. -/
def digest (p : Sha2Params) (msg : Bytes) : Bytes :=
  let padded := p.pad msg
  let h := (chunksOf p.blockBytes padded.length padded).foldl p.compress p.iv
  ((h.map (natToBE p.wordBytes)).flatten).take p.outBytes

end Sha2Params

/-- Round constants of SHA-224/256. -/
def k256 : List Nat :=
  [0x428a2f98, 0x71374491, 0xb5c0fbcf, 0xe9b5dba5, 0x3956c25b, 0x59f111f1, 0x923f82a4, 0xab1c5ed5,
   0xd807aa98, 0x12835b01, 0x243185be, 0x550c7dc3, 0x72be5d74, 0x80deb1fe, 0x9bdc06a7, 0xc19bf174,
   0xe49b69c1, 0xefbe4786, 0x0fc19dc6, 0x240ca1cc, 0x2de92c6f, 0x4a7484aa, 0x5cb0a9dc, 0x76f988da,
   0x983e5152, 0xa831c66d, 0xb00327c8, 0xbf597fc7, 0xc6e00bf3, 0xd5a79147, 0x06ca6351, 0x14292967,
   0x27b70a85, 0x2e1b2138, 0x4d2c6dfc, 0x53380d13, 0x650a7354, 0x766a0abb, 0x81c2c92e, 0x92722c85,
   0xa2bfe8a1, 0xa81a664b, 0xc24b8b70, 0xc76c51a3, 0xd192e819, 0xd6990624, 0xf40e3585, 0x106aa070,
   0x19a4c116, 0x1e376c08, 0x2748774c, 0x34b0bcb5, 0x391c0cb3, 0x4ed8aa4a, 0x5b9cca4f, 0x682e6ff3,
   0x748f82ee, 0x78a5636f, 0x84c87814, 0x8cc70208, 0x90befffa, 0xa4506ceb, 0xbef9a3f7, 0xc67178f2]

/-- SHA-256. -/
def sha256Params : Sha2Params :=
  { wordBits := 32, rounds := 64, k := k256,
    iv := [0x6a09e667, 0xbb67ae85, 0x3c6ef372, 0xa54ff53a,
           0x510e527f, 0x9b05688c, 0x1f83d9ab, 0x5be0cd19],
    bigS0 := (2, 13, 22), bigS1 := (6, 11, 25),
    smallS0 := (7, 18, 3), smallS1 := (17, 19, 10),
    outBytes := 32 }

/-- Round constants of SHA-384/512. -/
def k512 : List Nat :=
  [0x428a2f98d728ae22, 0x7137449123ef65cd, 0xb5c0fbcfec4d3b2f, 0xe9b5dba58189dbbc,
   0x3956c25bf348b538, 0x59f111f1b605d019, 0x923f82a4af194f9b, 0xab1c5ed5da6d8118,
   0xd807aa98a3030242, 0x12835b0145706fbe, 0x243185be4ee4b28c, 0x550c7dc3d5ffb4e2,
   0x72be5d74f27b896f, 0x80deb1fe3b1696b1, 0x9bdc06a725c71235, 0xc19bf174cf692694,
   0xe49b69c19ef14ad2, 0xefbe4786384f25e3, 0x0fc19dc68b8cd5b5, 0x240ca1cc77ac9c65,
   0x2de92c6f592b0275, 0x4a7484aa6ea6e483, 0x5cb0a9dcbd41fbd4, 0x76f988da831153b5,
   0x983e5152ee66dfab, 0xa831c66d2db43210, 0xb00327c898fb213f, 0xbf597fc7beef0ee4,
   0xc6e00bf33da88fc2, 0xd5a79147930aa725, 0x06ca6351e003826f, 0x142929670a0e6e70,
   0x27b70a8546d22ffc, 0x2e1b21385c26c926, 0x4d2c6dfc5ac42aed, 0x53380d139d95b3df,
   0x650a73548baf63de, 0x766a0abb3c77b2a8, 0x81c2c92e47edaee6, 0x92722c851482353b,
   0xa2bfe8a14cf10364, 0xa81a664bbc423001, 0xc24b8b70d0f89791, 0xc76c51a30654be30,
   0xd192e819d6ef5218, 0xd69906245565a910, 0xf40e35855771202a, 0x106aa07032bbd1b8,
   0x19a4c116b8d2d0c8, 0x1e376c085141ab53, 0x2748774cdf8eeb99, 0x34b0bcb5e19b48a8,
   0x391c0cb3c5c95a63, 0x4ed8aa4ae3418acb, 0x5b9cca4f7763e373, 0x682e6ff3d6b2b8a3,
   0x748f82ee5defb2fc, 0x78a5636f43172f60, 0x84c87814a1f0ab72, 0x8cc702081a6439ec,
   0x90befffa23631e28, 0xa4506cebde82bde9, 0xbef9a3f7b2c67915, 0xc67178f2e372532b,
   0xca273eceea26619c, 0xd186b8c721c0c207, 0xeada7dd6cde0eb1e, 0xf57d4f7fee6ed178,
   0x06f067aa72176fba, 0x0a637dc5a2c898a6, 0x113f9804bef90dae, 0x1b710b35131c471b,
   0x28db77f523047d84, 0x32caab7b40c72493, 0x3c9ebe0a15c9bebc, 0x431d67c49c100d4c,
   0x4cc5d4becb3e42b6, 0x597f299cfc657e2a, 0x5fcb6fab3ad6faec, 0x6c44198c4a475817]

/-- SHA-512. -/
def sha512Params : Sha2Params :=
  { wordBits := 64, rounds := 80, k := k512,
    iv := [0x6a09e667f3bcc908, 0xbb67ae8584caa73b, 0x3c6ef372fe94f82b, 0xa54ff53a5f1d36f1,
           0x510e527fade682d1, 0x9b05688c2b3e6c1f, 0x1f83d9abfb41bd6b, 0x5be0cd19137e2179],
    bigS0 := (28, 34, 39), bigS1 := (14, 18, 41),
    smallS0 := (1, 8, 7), smallS1 := (19, 61, 6),
    outBytes := 64 }

/-- SHA-384: SHA-512 with another initial value, truncated. -/
def sha384Params : Sha2Params :=
  { sha512Params with
    iv := [0xcbbb9d5dc1059ed8, 0x629a292a367cd507, 0x9159015a3070dd17, 0x152fecd8f70e5939,
           0x67332667ffc00b31, 0x8eb44a8768581511, 0xdb0c2e0d64f98fa7, 0x47b5481dbefa4fa4],
    outBytes := 48 }

/-! ## HMAC (RFC 2104), as `crypto/hmac` computes it -/

/-- The key block: a key longer than a block is hashed first, and the result is
zero-padded to the block size. -/
def hmacKeyBlock (p : Sha2Params) (key : Bytes) : Bytes :=
  let k := if key.length > p.blockBytes then p.digest key else key
  k ++ List.replicate (p.blockBytes - k.length) 0

/-- Result of `hmac.New(h, key)`, `Write(msg)`, `Sum(nil)`. -/
def hmac (p : Sha2Params) (key msg : Bytes) : Bytes :=
  let kb := hmacKeyBlock p key
  p.digest (kb.map (· ^^^ 0x5c) ++ p.digest (kb.map (· ^^^ 0x36) ++ msg))

/-- HMAC-SHA256. -/
def hmacSHA256 (key msg : Bytes) : Bytes := hmac sha256Params key msg

/-! ## Base64 (RFC 4648), as `encoding/base64` computes it -/

/-- A `base64.Encoding`: its alphabet, and whether it pads with `=`. -/
structure Encoding where
  alphabet : Bytes
  padding : Bool
deriving DecidableEq

/-- The alphabet of `base64.StdEncoding`. -/
def stdAlphabet : Bytes :=
  ascii "ABCDEFGHIJKLMNOPQRSTUVWXYZabcdefghijklmnopqrstuvwxyz0123456789+/"

/-- The alphabet of `base64.URLEncoding`. -/
def urlAlphabet : Bytes :=
  ascii "ABCDEFGHIJKLMNOPQRSTUVWXYZabcdefghijklmnopqrstuvwxyz0123456789-_"

/-- The value `base64.StdEncoding`. -/
def StdEncoding : Encoding := { alphabet := stdAlphabet, padding := true }

/-- The value `base64.RawURLEncoding`. -/
def RawURLEncoding : Encoding := { alphabet := urlAlphabet, padding := false }

/-- The padding character `=`. -/
def padChar : UInt8 := 0x3d

/-- The character of a six-bit value. -/
def b64Char (alpha : Bytes) (v : Nat) : UInt8 := alpha.getD v 0

/-- The padding that completes a final group to four characters. -/
def Encoding.pad (enc : Encoding) (n : Nat) : Bytes :=
  if enc.padding then List.replicate n padChar else []

/-- The method `Encoding.EncodeToString`. -/
def Encoding.EncodeToString (enc : Encoding) : Bytes → Bytes
  | [] => []
  | [a] =>
    [b64Char enc.alphabet (a.toNat / 4), b64Char enc.alphabet (a.toNat % 4 * 16)] ++ enc.pad 2
  | [a, b] =>
    [b64Char enc.alphabet (a.toNat / 4), b64Char enc.alphabet (a.toNat % 4 * 16 + b.toNat / 16),
     b64Char enc.alphabet (b.toNat % 16 * 4)] ++ enc.pad 1
  | a :: b :: c :: rest =>
    b64Char enc.alphabet (a.toNat / 4) :: b64Char enc.alphabet (a.toNat % 4 * 16 + b.toNat / 16) ::
    b64Char enc.alphabet (b.toNat % 16 * 4 + c.toNat / 64) :: b64Char enc.alphabet (c.toNat % 64) ::
    enc.EncodeToString rest

/-- The decode map of an encoding: the six-bit value of a character, if it has one. -/
def b64Value (alpha : Bytes) (c : UInt8) : Option Nat :=
  if alpha.indexOf c < 64 then some (alpha.indexOf c) else none

/-- Line breaks, which the decoder skips. -/
def isNewline (c : UInt8) : Bool := c == 0x0a || c == 0x0d

/-- The bytes of a quantum of `buf.length` six-bit values (2, 3 or 4 of them). -/
def quantumBytes (buf : List Nat) : Bytes :=
  let val := buf.getD 0 0 * 262144 + buf.getD 1 0 * 4096 + buf.getD 2 0 * 64 + buf.getD 3 0
  (natToBE 3 val).take (buf.length - 1)

/-- The loop of `Encoding.DecodeString` (not strict); `buf` holds the six-bit
values read so far in the current quantum. Line breaks are skipped. A padded
encoding wants its last quantum completed with `=` and nothing after it; an
unpadded one takes a last quantum of two or three characters and no `=`. -/
def Encoding.decodeLoop (enc : Encoding) : Bytes → List Nat → Option Bytes
  | [], buf =>
    if buf.length = 0 then some []
    else if buf.length = 1 || enc.padding then none
    else some (quantumBytes buf)
  | c :: rest, buf =>
    match b64Value enc.alphabet c with
    | some v =>
      if buf.length = 3 then
        (enc.decodeLoop rest []).map (quantumBytes (buf ++ [v]) ++ ·)
      else enc.decodeLoop rest (buf ++ [v])
    | none =>
      if isNewline c then enc.decodeLoop rest buf
      else if !enc.padding || c != padChar then none
      else if buf.length < 2 then none
      else if buf.length = 2 then
        match rest.dropWhile isNewline with
        | [] => none
        | c2 :: rest2 =>
          if c2 != padChar then none
          else if (rest2.dropWhile isNewline).isEmpty then some (quantumBytes buf) else none
      else if (rest.dropWhile isNewline).isEmpty then some (quantumBytes buf) else none

/-- The method `Encoding.DecodeString`; `none` is an error. -/
def Encoding.DecodeString (enc : Encoding) (s : Bytes) : Option Bytes := enc.decodeLoop s []

/-! ## Time, as package `time` computes it

`time.Now()` is an argument of the function that calls it. A clock reading is
the number of nanoseconds since the Unix epoch; `Add`, `After` and `Unix` then
are integer arithmetic. The representation of `time.Time` (seconds since year
1 in an `int64`) holds every instant a system clock can report, so no
operation below wraps. -/

/-- An instant: nanoseconds since the Unix epoch. -/
abbrev Time := Int

/-- A `time.Duration`: nanoseconds. -/
abbrev Duration := Int

namespace Time

/-- The constant `time.Second`. -/
def Second : Duration := 1000000000

/-- The constant `time.Hour`. -/
def Hour : Duration := 3600 * Second

/-- The method `Time.Add`. -/
def Add (t : Time) (d : Duration) : Time := t + d

/-- The method `Time.After`: `t` is strictly later than `u`. -/
def After (t u : Time) : Bool := decide (u < t)

/-- The method `Time.Unix`: whole seconds since the epoch, rounded down. -/
def Unix (t : Time) : Int := t / 1000000000

end Time

/-! ## `auth/token.go`: data -/

/-- The record `EventToken`. -/
structure EventToken where
  PublisherID : Bytes
  EventType : Bytes
  ExpiresAt : Time
  Hash : Bytes
deriving DecidableEq

/-- The record `TokenManager`. -/
structure TokenManager where
  jwtSecret : Bytes
  eventSecret : Bytes
deriving DecidableEq

/-- The two errors `VerifyEventToken` builds with `fmt.Errorf`. -/
inductive EventError where
  /-- The error "event token expired". -/
  | expired
  /-- The error "invalid payload hash". -/
  | invalidPayloadHash
deriving DecidableEq

/-- The constructor `NewTokenManager`. -/
def NewTokenManager (jwtSecret eventSecret : Bytes) : TokenManager :=
  { jwtSecret := jwtSecret, eventSecret := eventSecret }

/-! ## `auth/token.go`: event tokens -/

/-- The hash both event-token functions compute:
`base64.StdEncoding.EncodeToString` of the HMAC-SHA256 of the payload under
`eventSecret`. -/
def payloadHash (tm : TokenManager) (payload : Bytes) : Bytes :=
  StdEncoding.EncodeToString (hmacSHA256 tm.eventSecret payload)

/-- The method `CreateEventToken`; `now` is the reading of `time.Now()`. The
second component is the `error` result. -/
def CreateEventToken (tm : TokenManager) (now : Time) (publisherID eventType payload : Bytes) :
    EventToken × Option EventError :=
  let hash := payloadHash tm payload
  let e : EventToken :=
    { PublisherID := publisherID, EventType := eventType,
      ExpiresAt := now.Add (24 * Time.Hour), Hash := hash }
  (e, none)

/-- The method `VerifyEventToken`; `now` is the reading of `time.Now()`, and
`none` is the `nil` error. -/
def VerifyEventToken (tm : TokenManager) (now : Time) (token : EventToken) (payload : Bytes) :
    Option EventError :=
  if now.After token.ExpiresAt then some EventError.expired
  else
    let hash := payloadHash tm payload
    if hash != token.Hash then some EventError.invalidPayloadHash
    else none

/-! ## UTF-8, as `unicode/utf8` computes it -/

/-- A continuation byte in the range `lo..hi`. -/
def inRange (lo hi : Nat) (b : UInt8) : Bool := decide (lo ≤ b.toNat) && decide (b.toNat ≤ hi)

/-- `utf8.DecodeRune`: the rune at the head of `s` and its width, or `none`
where Go returns `(RuneError, 1)` (or `(RuneError, 0)` on empty input). -/
def decodeRune (s : Bytes) : Option (Nat × Nat) :=
  match s with
  | [] => none
  | b0 :: rest =>
    let x := b0.toNat
    if x < 0x80 then some (x, 1)
    else if 0xC2 ≤ x ∧ x ≤ 0xDF then
      match rest with
      | b1 :: _ =>
        if inRange 0x80 0xBF b1 then some ((x % 32) * 64 + b1.toNat % 64, 2) else none
      | _ => none
    else if 0xE0 ≤ x ∧ x ≤ 0xEF then
      match rest with
      | b1 :: b2 :: _ =>
        let lo := if x = 0xE0 then 0xA0 else 0x80
        let hi := if x = 0xED then 0x9F else 0xBF
        if inRange lo hi b1 && inRange 0x80 0xBF b2 then
          some ((x % 16) * 4096 + (b1.toNat % 64) * 64 + b2.toNat % 64, 3)
        else none
      | _ => none
    else if 0xF0 ≤ x ∧ x ≤ 0xF4 then
      match rest with
      | b1 :: b2 :: b3 :: _ =>
        let lo := if x = 0xF0 then 0x90 else 0x80
        let hi := if x = 0xF4 then 0x8F else 0xBF
        if inRange lo hi b1 && inRange 0x80 0xBF b2 && inRange 0x80 0xBF b3 then
          some ((x % 8) * 262144 + (b1.toNat % 64) * 4096 + (b2.toNat % 64) * 64
            + b3.toNat % 64, 4)
        else none
      | _ => none
    else none

/-- `utf8.EncodeRune` (`utf8.AppendRune`): surrogates and values past U+10FFFF
are written as U+FFFD. -/
def encodeRune (r : Nat) : Bytes :=
  if r < 0x80 then [UInt8.ofNat r]
  else if r < 0x800 then [UInt8.ofNat (0xC0 + r / 64), UInt8.ofNat (0x80 + r % 64)]
  else if (0xD800 ≤ r ∧ r < 0xE000) ∨ 0x10FFFF < r then [0xEF, 0xBF, 0xBD]
  else if r < 0x10000 then
    [UInt8.ofNat (0xE0 + r / 4096), UInt8.ofNat (0x80 + r / 64 % 64), UInt8.ofNat (0x80 + r % 64)]
  else
    [UInt8.ofNat (0xF0 + r / 262144), UInt8.ofNat (0x80 + r / 4096 % 64),
     UInt8.ofNat (0x80 + r / 64 % 64), UInt8.ofNat (0x80 + r % 64)]

/-! ## JSON encoding, as `json.Marshal` computes it -/

/-- A lower-case hexadecimal digit. -/
def hexDigit (n : Nat) : UInt8 := (ascii "0123456789abcdef").getD n 0

/-- The table `htmlSafeSet`: ASCII bytes `Marshal` copies unescaped. -/
def htmlSafe (b : UInt8) : Bool :=
  decide (0x20 ≤ b.toNat) && decide (b.toNat < 0x80) && b != 0x22 && b != 0x26 && b != 0x3c
    && b != 0x3e && b != 0x5c

/-- The body of a JSON string literal (between the quotes) that `Marshal` writes
for a Go string, HTML escaping on. Invalid UTF-8 is written as the escape of
U+FFFD. (Go 1.22 and later write the two-character escapes for backspace and
form feed where this writes the six-character ones; both decode alike.) -/
def jsonEscape : Nat → Bytes → Bytes
  | 0, _ => []
  | _, [] => []
  | fuel + 1, b :: rest =>
    if b.toNat < 0x80 then
      (if htmlSafe b then [b]
       else if b == 0x5c || b == 0x22 then [0x5c, b]
       else if b == 0x0a then ascii "\\n"
       else if b == 0x0d then ascii "\\r"
       else if b == 0x09 then ascii "\\t"
       else ascii "\\u00" ++ [hexDigit (b.toNat / 16), hexDigit (b.toNat % 16)])
      ++ jsonEscape fuel rest
    else
      match decodeRune (b :: rest) with
      | none => ascii "\\ufffd" ++ jsonEscape fuel rest
      | some (r, size) =>
        if r = 0x2028 ∨ r = 0x2029 then
          ascii "\\u202" ++ [hexDigit (r % 16)] ++ jsonEscape fuel (rest.drop (size - 1))
        else (b :: rest).take size ++ jsonEscape fuel (rest.drop (size - 1))

/-- The JSON text of a Go string. -/
def jsonString (s : Bytes) : Bytes := [0x22] ++ jsonEscape s.length s ++ [0x22]

/-- Decimal digits of a natural number, most significant first. -/
def natDigits : Nat → Nat → Bytes
  | 0, _ => []
  | fuel + 1, n =>
    if n < 10 then [UInt8.ofNat (48 + n)]
    else natDigits fuel (n / 10) ++ [UInt8.ofNat (48 + n % 10)]

/-- The JSON text of a Go integer (`strconv.AppendInt` in base 10). -/
def jsonInt (n : Int) : Bytes :=
  if n < 0 then [0x2d] ++ natDigits (n.natAbs + 1) n.natAbs else natDigits (n.natAbs + 1) n.natAbs

/-! ## Floating point, as far as JSON numbers need it

`json.Unmarshal` stores a JSON number in an `interface{}` as a `float64`
(`strconv.ParseFloat`), and the claim checks of the token library convert it
with `int64(f)`. A finite `float64` is kept exactly, as a sign, a mantissa and
a binary exponent. -/

/-- A finite `float64`: `(-1)^neg * mant * 2^exp`. -/
structure F64 where
  neg : Bool
  mant : Nat
  exp : Int
deriving DecidableEq

/-- Number of binary digits of `n`. -/
def bitLen : Nat → Nat → Nat
  | 0, _ => 0
  | fuel + 1, n => if n = 0 then 0 else 1 + bitLen fuel (n / 2)

/-- The `float64` nearest to `num / den` (ties to even), as mantissa and
exponent; `none` when the result overflows (`strconv.ErrRange`). An integer
below `2^53` is its own `float64`. -/
def roundF64 (num den : Nat) : Option (Nat × Int) :=
  if den = 1 ∧ num < 2 ^ 53 then some (num, 0)
  else if num = 0 then some (0, 0)
  else
    let l : Int := (bitLen num num : Int) - (bitLen den den : Int)
    -- `e0` is the exponent of the leading bit of `num / den`
    let e0 : Int :=
      if (if 0 ≤ l then den * 2 ^ l.toNat ≤ num else den ≤ num * 2 ^ (-l).toNat) then l else l - 1
    let q : Int := max (e0 - 52) (-1074)
    let n1 := if 0 ≤ q then num else num * 2 ^ (-q).toNat
    let d1 := if 0 ≤ q then den * 2 ^ q.toNat else den
    let m := n1 / d1
    let r := n1 % d1
    let m1 := if d1 < 2 * r ∨ (2 * r = d1 ∧ m % 2 = 1) then m + 1 else m
    if 0 ≤ q ∧ 2 ^ 1024 ≤ m1 * 2 ^ q.toNat then none else some (m1, q)

/-- The conversion `int64(f)`: truncation toward zero; a value outside the
range of `int64` converts to the smallest `int64`, as on amd64 (the Go
specification leaves that case to the implementation). -/
def F64.toInt64 (f : F64) : Int :=
  let mag : Nat := if 0 ≤ f.exp then f.mant * 2 ^ f.exp.toNat else f.mant / 2 ^ (-f.exp).toNat
  let v : Int := if f.neg then -(mag : Int) else (mag : Int)
  if -(2 : Int) ^ 63 ≤ v ∧ v < (2 : Int) ^ 63 then v else -(2 : Int) ^ 63

/-! ## JSON decoding, as `json.Unmarshal` and `json.Decoder` compute it -/

/-- A decoded JSON value, as `Unmarshal` stores it in an `interface{}`. -/
inductive JSON where
  | null
  | bool (b : Bool)
  | num (f : F64)
  | str (s : Bytes)
  | arr (elems : List JSON)
  | obj (members : List (Bytes × JSON))

/-- JSON white space. -/
def isSpace (c : UInt8) : Bool := c == 0x20 || c == 0x09 || c == 0x0d || c == 0x0a

/-- Drop leading white space. -/
def skipSpace (s : Bytes) : Bytes := s.dropWhile isSpace

/-- A decimal digit. -/
def isDigit (c : UInt8) : Bool := decide (0x30 ≤ c.toNat) && decide (c.toNat ≤ 0x39)

/-- Value of a string of decimal digits. -/
def digitsToNat (ds : Bytes) : Nat := ds.foldl (fun acc d => acc * 10 + (d.toNat - 48)) 0

/-- Value of a hexadecimal digit. -/
def hexValue (c : UInt8) : Option Nat :=
  let x := c.toNat
  if 0x30 ≤ x ∧ x ≤ 0x39 then some (x - 0x30)
  else if 0x61 ≤ x ∧ x ≤ 0x66 then some (x - 0x61 + 10)
  else if 0x41 ≤ x ∧ x ≤ 0x46 then some (x - 0x41 + 10)
  else none

/-- The helper `getu4`: the value of a `\uXXXX` escape at the head of `s`. -/
def getu4 (s : Bytes) : Option Nat :=
  match s with
  | 0x5c :: 0x75 :: a :: b :: c :: d :: _ =>
    match hexValue a, hexValue b, hexValue c, hexValue d with
    | some x, some y, some z, some w => some (x * 4096 + y * 256 + z * 16 + w)
    | _, _, _, _ => none
  | _ => none

/-- The body of a string literal, after the opening quote: the unquoted bytes
and the input after the closing quote. The scanner rejects control characters
and unknown escapes; `unquote` decodes the escapes and rewrites invalid UTF-8
and unpaired surrogates as U+FFFD. -/
def parseString : Nat → Bytes → Option (Bytes × Bytes)
  | 0, _ => none
  | _, [] => none
  | fuel + 1, c :: rest =>
    if c == 0x22 then some ([], rest)
    else if c == 0x5c then
      match rest with
      | [] => none
      | e :: rest1 =>
        if e == 0x75 then
          match getu4 (c :: rest) with
          | none => none
          | some rr =>
            let rest2 := rest1.drop 4
            if 0xD800 ≤ rr ∧ rr < 0xE000 then
              match getu4 rest2 with
              | some rr1 =>
                if rr < 0xDC00 ∧ 0xDC00 ≤ rr1 ∧ rr1 < 0xE000 then
                  (parseString fuel (rest2.drop 6)).map fun p =>
                    (encodeRune ((rr - 0xD800) * 1024 + (rr1 - 0xDC00) + 0x10000) ++ p.1, p.2)
                else (parseString fuel rest2).map fun p => (encodeRune 0xFFFD ++ p.1, p.2)
              | none => (parseString fuel rest2).map fun p => (encodeRune 0xFFFD ++ p.1, p.2)
            else (parseString fuel rest2).map fun p => (encodeRune rr ++ p.1, p.2)
        else
          let plain : Option UInt8 :=
            if e == 0x22 || e == 0x5c || e == 0x2f then some e
            else if e == 0x62 then some 0x08
            else if e == 0x66 then some 0x0c
            else if e == 0x6e then some 0x0a
            else if e == 0x72 then some 0x0d
            else if e == 0x74 then some 0x09
            else none
          match plain with
          | none => none
          | some b => (parseString fuel rest1).map fun p => (b :: p.1, p.2)
    else if c.toNat < 0x20 then none
    else if c.toNat < 0x80 then (parseString fuel rest).map fun p => (c :: p.1, p.2)
    else
      match decodeRune (c :: rest) with
      | none => (parseString fuel rest).map fun p => (encodeRune 0xFFFD ++ p.1, p.2)
      | some (_, size) =>
        (parseString fuel (rest.drop (size - 1))).map fun p => ((c :: rest).take size ++ p.1, p.2)

/-- The fraction of a number literal: its digits and the input after them,
nothing for a literal without one; `none` for a point no digit follows. -/
def parseFrac (s : Bytes) : Option (Bytes × Bytes) :=
  match s with
  | [] => some ([], [])
  | c :: rest =>
    if c == 0x2e then
      if (rest.takeWhile isDigit).isEmpty then none
      else some (rest.takeWhile isDigit, rest.dropWhile isDigit)
    else some ([], c :: rest)

/-- The exponent of a number literal: its value and the input after it, zero
for a literal without one; `none` for an `e` no digit follows. -/
def parseExp (s : Bytes) : Option (Int × Bytes) :=
  match s with
  | [] => some (0, [])
  | c :: rest =>
    if c == 0x65 || c == 0x45 then
      let expNeg := rest.head? == some 0x2d
      let digits := if rest.head? == some 0x2d || rest.head? == some 0x2b then rest.drop 1 else rest
      if (digits.takeWhile isDigit).isEmpty then none
      else
        some (if expNeg then -(digitsToNat (digits.takeWhile isDigit) : Int)
              else (digitsToNat (digits.takeWhile isDigit) : Int),
          digits.dropWhile isDigit)
    else some (0, c :: rest)

/-- The `float64` of the decimal `mant * 10 ^ e10` (`strconv.ParseFloat`). -/
def decimalToF64 (neg : Bool) (mant : Nat) (e10 : Int) : Option F64 :=
  let num := if 0 ≤ e10 then mant * 10 ^ e10.toNat else mant
  let den := if 0 ≤ e10 then 1 else 10 ^ (-e10).toNat
  (roundF64 num den).map fun me => { neg := neg, mant := me.1, exp := me.2 }

/-- A number literal at the head of `s`: its `float64` value and the input
after it. -/
def parseNumber (s : Bytes) : Option (F64 × Bytes) :=
  let neg := s.head? == some 0x2d
  let s1 := if neg then s.drop 1 else s
  let intPart := s1.takeWhile isDigit
  if intPart.isEmpty || (intPart.head? == some 0x30 && intPart.length != 1) then none
  else
    match parseFrac (s1.dropWhile isDigit) with
    | none => none
    | some (fracPart, s3) =>
      match parseExp s3 with
      | none => none
      | some (e, s4) =>
        (decimalToF64 neg (digitsToNat (intPart ++ fracPart)) (e - (fracPart.length : Int))).map
          fun f => (f, s4)

/-- The scanner's limit on nested arrays and objects (`maxNestingDepth`). -/
def maxNestingDepth : Nat := 10000

mutual

/-- One JSON value at the head of `s` (no leading white space) and the input
after it; `depth` counts the arrays and objects that are open. -/
def parseValue : Nat → Nat → Bytes → Option (JSON × Bytes)
  | 0, _, _ => none
  | _, _, [] => none
  | fuel + 1, depth, c :: rest =>
    if c == 0x7b then
      if maxNestingDepth ≤ depth then none
      else
        match skipSpace rest with
        | [] => none
        | d :: rest1 =>
          if d == 0x7d then some (JSON.obj [], rest1)
          else parseMembers fuel (depth + 1) (d :: rest1) []
    else if c == 0x5b then
      if maxNestingDepth ≤ depth then none
      else
        match skipSpace rest with
        | [] => none
        | d :: rest1 =>
          if d == 0x5d then some (JSON.arr [], rest1)
          else parseElements fuel (depth + 1) (d :: rest1) []
    else if c == 0x22 then
      (parseString (rest.length + 1) rest).map fun p => (JSON.str p.1, p.2)
    else if (c :: rest).take 4 == ascii "true" then some (JSON.bool true, rest.drop 3)
    else if (c :: rest).take 5 == ascii "false" then some (JSON.bool false, rest.drop 4)
    else if (c :: rest).take 4 == ascii "null" then some (JSON.null, rest.drop 3)
    else if c == 0x2d || isDigit c then
      (parseNumber (c :: rest)).map fun p => (JSON.num p.1, p.2)
    else none

/-- The members of an object, from a key on, up to the closing brace. -/
def parseMembers : Nat → Nat → Bytes → List (Bytes × JSON) → Option (JSON × Bytes)
  | 0, _, _, _ => none
  | _, _, [], _ => none
  | fuel + 1, depth, c :: rest, acc =>
    if c != 0x22 then none
    else
      match parseString (rest.length + 1) rest with
      | none => none
      | some (key, r1) =>
        match skipSpace r1 with
        | [] => none
        | colon :: r2 =>
          if colon != 0x3a then none
          else
            match parseValue fuel depth (skipSpace r2) with
            | none => none
            | some (v, r3) =>
              match skipSpace r3 with
              | [] => none
              | sep :: r4 =>
                if sep == 0x2c then parseMembers fuel depth (skipSpace r4) (acc ++ [(key, v)])
                else if sep == 0x7d then some (JSON.obj (acc ++ [(key, v)]), r4)
                else none

/-- The elements of an array, from a value on, up to the closing bracket. -/
def parseElements : Nat → Nat → Bytes → List JSON → Option (JSON × Bytes)
  | 0, _, _, _ => none
  | fuel + 1, depth, s, acc =>
    match parseValue fuel depth s with
    | none => none
    | some (v, r1) =>
      match skipSpace r1 with
      | [] => none
      | sep :: r2 =>
        if sep == 0x2c then parseElements fuel depth (skipSpace r2) (acc ++ [v])
        else if sep == 0x5d then some (JSON.arr (acc ++ [v]), r2)
        else none

end

/-- A Go `map[string]interface{}`, as the list of members in the order they
were decoded. -/
abbrev JSONMap := List (Bytes × JSON)

/-- The value `m[key]`: a later member replaces an earlier one of the same
key. -/
def JSONMap.get (m : JSONMap) (key : Bytes) : Option JSON :=
  (m.reverse.find? fun kv => kv.1 == key).map fun kv => kv.2

/-- `json.Unmarshal(data, &m)` for a `map[string]interface{}`: the whole input
must be one value; an object fills the map, `null` leaves it empty, any other
value is an error. -/
def jsonUnmarshalMap (data : Bytes) : Option JSONMap :=
  match parseValue (data.length + 1) 0 (skipSpace data) with
  | some (JSON.obj m, rest) => if (skipSpace rest).isEmpty then some m else none
  | some (JSON.null, rest) => if (skipSpace rest).isEmpty then some [] else none
  | _ => none

/-- `json.NewDecoder(r).Decode(&m)` for a `map[string]interface{}`: the first
value of the input is decoded, what follows it is left unread. -/
def jsonDecodeMap (data : Bytes) : Option JSONMap :=
  match parseValue (data.length + 1) 0 (skipSpace data) with
  | some (JSON.obj m, _) => some m
  | some (JSON.null, _) => some []
  | _ => none

/-! ## The token library `github.com/golang-jwt/jwt`

The import path without a major-version suffix is the v3 line of the library;
the definitions follow v3.2.2 (`token.go`, `parser.go`, `hmac.go`,
`signing_method.go`, `claims.go`, `map_claims.go`, `errors.go`). The key passed
in is always a byte slice, as `jwtSecret` is. -/

/-- `strings.Split(s, sep)` for a one-byte separator. -/
def splitOn (sep : UInt8) : Bytes → List Bytes
  | [] => [[]]
  | c :: rest =>
    if c == sep then [] :: splitOn sep rest
    else
      match splitOn sep rest with
      | [] => [[c]]
      | p :: ps => (c :: p) :: ps

/-- The function `EncodeSegment`: URL-safe base64 without padding. -/
def EncodeSegment (seg : Bytes) : Bytes := RawURLEncoding.EncodeToString seg

/-- The function `DecodeSegment`; `none` is an error. -/
def DecodeSegment (seg : Bytes) : Option Bytes := RawURLEncoding.DecodeString seg

/-- The hash functions of the HMAC signing methods (`crypto.Hash`). -/
inductive Hash where
  | SHA256
  | SHA384
  | SHA512
deriving DecidableEq

/-- The algorithm behind a `crypto.Hash`. -/
def Hash.params : Hash → Sha2Params
  | Hash.SHA256 => sha256Params
  | Hash.SHA384 => sha384Params
  | Hash.SHA512 => sha512Params

/-- A registered signing method, by its Go type: `*SigningMethodHMAC`, or one of
the other types (`*SigningMethodRSA`, `*SigningMethodRSAPSS`,
`*SigningMethodECDSA`, `*SigningMethodEd25519`, the type of the `none`
method). -/
inductive SigningMethod where
  | HMAC (name : Bytes) (hash : Hash)
  | other (name : Bytes)
deriving DecidableEq

/-- The value `jwt.SigningMethodHS256`. -/
def SigningMethodHS256 : SigningMethod := SigningMethod.HMAC (ascii "HS256") Hash.SHA256

/-- The value `jwt.SigningMethodHS384`. -/
def SigningMethodHS384 : SigningMethod := SigningMethod.HMAC (ascii "HS384") Hash.SHA384

/-- The value `jwt.SigningMethodHS512`. -/
def SigningMethodHS512 : SigningMethod := SigningMethod.HMAC (ascii "HS512") Hash.SHA512

/-- The method `Alg`. -/
def SigningMethod.Alg : SigningMethod → Bytes
  | SigningMethod.HMAC name _ => name
  | SigningMethod.other name => name

/-- Names of the registered methods that are not HMAC methods. -/
def otherMethodNames : List Bytes :=
  [ascii "RS256", ascii "RS384", ascii "RS512", ascii "PS256", ascii "PS384", ascii "PS512",
   ascii "ES256", ascii "ES384", ascii "ES512", ascii "EdDSA", ascii "none"]

/-- The function `GetSigningMethod`: the method registered under a name. -/
def GetSigningMethod (alg : Bytes) : Option SigningMethod :=
  if alg == ascii "HS256" then some SigningMethodHS256
  else if alg == ascii "HS384" then some SigningMethodHS384
  else if alg == ascii "HS512" then some SigningMethodHS512
  else if otherMethodNames.contains alg then some (SigningMethod.other alg)
  else none

/-- The method `Sign` with a byte-slice key; `none` is an error. Only an HMAC
method takes such a key. -/
def SigningMethod.Sign (m : SigningMethod) (signingString key : Bytes) : Option Bytes :=
  match m with
  | SigningMethod.HMAC _ h => some (EncodeSegment (hmac h.params key signingString))
  | SigningMethod.other _ => none

/-- The method `Verify` with a byte-slice key: `true` is the `nil` error. A
method of another type refuses the key (`ErrInvalidKeyType`, or the refusal of
the `none` method). -/
def SigningMethod.Verify (m : SigningMethod) (signingString signature key : Bytes) : Bool :=
  match m with
  | SigningMethod.HMAC _ h =>
    match DecodeSegment signature with
    | none => false
    | some sig => sig == hmac h.params key signingString
  | SigningMethod.other _ => false

/-- The record `jwt.StandardClaims`. -/
structure StandardClaims where
  Audience : Bytes := []
  ExpiresAt : Int := 0
  Id : Bytes := []
  IssuedAt : Int := 0
  Issuer : Bytes := []
  NotBefore : Int := 0
  Subject : Bytes := []
deriving DecidableEq

/-- One member of a marshalled record with the `omitempty` option: nothing for
the zero value. -/
def stringMember (key value : Bytes) : List Bytes :=
  if value.isEmpty then [] else [jsonString key ++ [0x3a] ++ jsonString value]

/-- As `stringMember`, for an integer field. -/
def intMember (key : Bytes) (value : Int) : List Bytes :=
  if value = 0 then [] else [jsonString key ++ [0x3a] ++ jsonInt value]

/-- `json.Marshal` of a `StandardClaims`: the fields in declaration order under
their JSON names, all `omitempty`. -/
def StandardClaims.marshal (c : StandardClaims) : Bytes :=
  [0x7b] ++ (ascii ",").intercalate
    (stringMember (ascii "aud") c.Audience ++ intMember (ascii "exp") c.ExpiresAt
      ++ stringMember (ascii "jti") c.Id ++ intMember (ascii "iat") c.IssuedAt
      ++ stringMember (ascii "iss") c.Issuer ++ intMember (ascii "nbf") c.NotBefore
      ++ stringMember (ascii "sub") c.Subject) ++ [0x7d]

/-- `json.Marshal` of the header `NewWithClaims` builds, the map with the keys
`typ` and `alg`; `Marshal` writes a map in key order. -/
def marshalHeader (m : SigningMethod) : Bytes :=
  [0x7b] ++ jsonString (ascii "alg") ++ [0x3a] ++ jsonString m.Alg ++ [0x2c]
    ++ jsonString (ascii "typ") ++ [0x3a] ++ jsonString (ascii "JWT") ++ [0x7d]

/-- The method `SigningString` of the token `NewWithClaims(m, c)`. -/
def SigningString (m : SigningMethod) (c : StandardClaims) : Bytes :=
  EncodeSegment (marshalHeader m) ++ [0x2e] ++ EncodeSegment c.marshal

/-- The method `SignedString` of the token `NewWithClaims(m, c)`, with a
byte-slice key; `none` is an error. -/
def SignedString (m : SigningMethod) (c : StandardClaims) (key : Bytes) : Option Bytes :=
  (m.Sign (SigningString m c) key).map fun sig => SigningString m c ++ [0x2e] ++ sig

/-- The record `jwt.ValidationError`, by its bit field `Errors`. -/
structure ValidationError where
  Errors : Nat
deriving DecidableEq

/-! The bits of `ValidationError.Errors`. -/

def ValidationErrorMalformed : Nat := 1
def ValidationErrorUnverifiable : Nat := 2
def ValidationErrorSignatureInvalid : Nat := 4
def ValidationErrorAudience : Nat := 8
def ValidationErrorExpired : Nat := 16
def ValidationErrorIssuedAt : Nat := 32
def ValidationErrorIssuer : Nat := 64
def ValidationErrorNotValidYet : Nat := 128
def ValidationErrorId : Nat := 256
def ValidationErrorClaimsInvalid : Nat := 512

/-- Whether an error carries a given bit. -/
def ValidationError.has (e : ValidationError) (bit : Nat) : Bool := e.Errors &&& bit != 0

/-- The type `jwt.MapClaims`. -/
abbrev MapClaims := JSONMap

/-- The helper `verifyExp`. -/
def verifyExp (exp now : Int) (required : Bool) : Bool :=
  if exp = 0 then !required else decide (now ≤ exp)

/-- The helper `verifyIat`. -/
def verifyIat (iat now : Int) (required : Bool) : Bool :=
  if iat = 0 then !required else decide (iat ≤ now)

/-- The helper `verifyNbf`. -/
def verifyNbf (nbf now : Int) (required : Bool) : Bool :=
  if nbf = 0 then !required else decide (nbf ≤ now)

/-- The shape `MapClaims.VerifyExpiresAt`, `VerifyIssuedAt` and
`VerifyNotBefore` share: an absent claim passes unless required, a number is
converted with `int64` and handed to the helper, any other value fails. -/
def verifyNumeric (check : Int → Int → Bool → Bool) (m : MapClaims) (key : Bytes) (cmp : Int)
    (req : Bool) : Bool :=
  match m.get key with
  | none => !req
  | some (JSON.num f) => check f.toInt64 cmp req
  | some _ => false

/-- The method `MapClaims.VerifyExpiresAt`. -/
def MapClaims.VerifyExpiresAt (m : MapClaims) (cmp : Int) (req : Bool) : Bool :=
  verifyNumeric verifyExp m (ascii "exp") cmp req

/-- The method `MapClaims.VerifyIssuedAt`. -/
def MapClaims.VerifyIssuedAt (m : MapClaims) (cmp : Int) (req : Bool) : Bool :=
  verifyNumeric verifyIat m (ascii "iat") cmp req

/-- The method `MapClaims.VerifyNotBefore`. -/
def MapClaims.VerifyNotBefore (m : MapClaims) (cmp : Int) (req : Bool) : Bool :=
  verifyNumeric verifyNbf m (ascii "nbf") cmp req

/-- The method `MapClaims.Valid`; `now` is the reading of `TimeFunc()`, which
is `time.Now`. The result is the bit field of the error, `0` for `nil`. -/
def MapClaims.Valid (m : MapClaims) (now : Time) : Nat :=
  (if m.VerifyExpiresAt now.Unix false then 0 else ValidationErrorExpired)
    ||| (if m.VerifyIssuedAt now.Unix false then 0 else ValidationErrorIssuedAt)
    ||| (if m.VerifyNotBefore now.Unix false then 0 else ValidationErrorNotValidYet)

/-- The record `jwt.Token`, as the parser fills it. -/
structure Token where
  Raw : Bytes
  Method : Option SigningMethod := none
  Header : JSONMap := []
  Claims : MapClaims := []
  Signature : Bytes := []
  Valid : Bool := false

/-- The value `token.Header["alg"].(string)`. -/
def headerAlg (header : JSONMap) : Option Bytes :=
  match header.get (ascii "alg") with
  | some (JSON.str s) => some s
  | _ => none

/-- The method `Parser.ParseUnverified` with `MapClaims`: the token and its
three segments, or the token built so far (if any) and the error. -/
def ParseUnverified (tokenString : Bytes) :
    Except (Option Token × ValidationError) (Token × List Bytes) :=
  let parts := splitOn 0x2e tokenString
  if parts.length != 3 then .error (none, ⟨ValidationErrorMalformed⟩)
  else
    let token : Token := { Raw := tokenString }
    match (DecodeSegment (parts.getD 0 [])).bind jsonUnmarshalMap with
    | none => .error (some token, ⟨ValidationErrorMalformed⟩)
    | some header =>
      let token := { token with Header := header }
      match (DecodeSegment (parts.getD 1 [])).bind jsonDecodeMap with
      | none => .error (some token, ⟨ValidationErrorMalformed⟩)
      | some claims =>
        let token := { token with Claims := claims }
        match headerAlg token.Header with
        | some alg =>
          match GetSigningMethod alg with
          | none => .error (some token, ⟨ValidationErrorUnverifiable⟩)
          | some method => .ok ({ token with Method := some method }, parts)
        | none => .error (some token, ⟨ValidationErrorUnverifiable⟩)

/-- The function `jwt.Parse`, which is `Parser.ParseWithClaims` with
`MapClaims` and a default parser; `keyFunc` returns the key or fails, and `now`
is the clock reading of the claim checks. The result is the pair Go returns,
`none` in the second place for the `nil` error. -/
def Parse (keyFunc : Token → Option Bytes) (now : Time) (tokenString : Bytes) :
    Option Token × Option ValidationError :=
  match ParseUnverified tokenString with
  | .error (token, err) => (token, some err)
  | .ok (token, parts) =>
    match keyFunc token with
    | none => (some token, some ⟨ValidationErrorUnverifiable⟩)
    | some key =>
      let claimErrors := token.Claims.Valid now
      let token := { token with Signature := parts.getD 2 [] }
      let signingString := parts.getD 0 [] ++ [0x2e] ++ parts.getD 1 []
      let verified :=
        match token.Method with
        | some method => method.Verify signingString token.Signature key
        | none => false
      let errors :=
        if verified then claimErrors else claimErrors ||| ValidationErrorSignatureInvalid
      if errors = 0 then (some { token with Valid := true }, none)
      else (some token, some ⟨errors⟩)

/-! ## `auth/token.go`: access tokens -/

/-- The key function `VerifyJWT` passes to `jwt.Parse`: the secret for a token
whose method is a `*jwt.SigningMethodHMAC`, an error for any other. -/
def keyFunc (tm : TokenManager) (token : Token) : Option Bytes :=
  match token.Method with
  | some (SigningMethod.HMAC _ _) => some tm.jwtSecret
  | _ => none

/-- The claims `CreateJWT` signs; `now1` and `now2` are its two readings of
`time.Now()`, in the order the composite literal evaluates them. -/
def jwtClaims (now1 now2 : Time) (publisherID : Bytes) : StandardClaims :=
  { ExpiresAt := (now1.Add (1 * Time.Hour)).Unix,
    IssuedAt := now2.Unix,
    Issuer := publisherID }

/-- The method `CreateJWT`: the signed string, or `none` for an error. -/
def CreateJWT (tm : TokenManager) (now1 now2 : Time) (publisherID : Bytes) : Option Bytes :=
  SignedString SigningMethodHS256 (jwtClaims now1 now2 publisherID) tm.jwtSecret

/-- The method `VerifyJWT`; `now` is the clock reading of the claim checks. -/
def VerifyJWT (tm : TokenManager) (now : Time) (tokenString : Bytes) :
    Option Token × Option ValidationError :=
  Parse (keyFunc tm) now tokenString

/-! ## Notions the properties are stated with -/

/-- What the base64 round trip needs of an alphabet: a character for each
six-bit value, none of them `=`. -/
structure GoodAlphabet (alpha : Bytes) : Prop where
  value_char : ∀ v, v < 64 → b64Value alpha (b64Char alpha v) = some v
  pad : b64Value alpha padChar = none

/-- A character with a six-bit value. -/
def isB64 (alpha : Bytes) (c : UInt8) : Prop := (b64Value alpha c).isSome = true

/-- The helper `utf8.Valid`: the string is a sequence of well-formed UTF-8
encodings. -/
def utf8Valid : Nat → Bytes → Bool
  | 0, s => s.isEmpty
  | _, [] => true
  | fuel + 1, b :: rest =>
    match decodeRune (b :: rest) with
    | none => false
    | some (_, size) => utf8Valid fuel (rest.drop (size - 1))

/-- A string with every byte that starts no well-formed UTF-8 encoding replaced
by the encoding of U+FFFD. -/
def toValidUTF8 : Nat → Bytes → Bytes
  | 0, _ => []
  | _, [] => []
  | fuel + 1, b :: rest =>
    match decodeRune (b :: rest) with
    | none => [0xEF, 0xBF, 0xBD] ++ toValidUTF8 fuel rest
    | some (_, size) => (b :: rest).take size ++ toValidUTF8 fuel (rest.drop (size - 1))

/-- The algorithm name the header of a token string declares: the `alg` member
of the JSON object in the first segment. -/
def declaredAlg (tokenString : Bytes) : Option Bytes :=
  ((DecodeSegment ((splitOn 0x2e tokenString).getD 0 [])).bind jsonUnmarshalMap).bind headerAlg

/-- The names of the HMAC family. -/
def hmacAlgNames : List Bytes := [ascii "HS256", ascii "HS384", ascii "HS512"]

/-- The value `claims["iss"].(string)` of a parsed token. -/
def Token.issuer (t : Token) : Option Bytes :=
  match t.Claims.get (ascii "iss") with
  | some (JSON.str s) => some s
  | _ => none

/-! ## Auxiliary notions of the proofs -/

/-- Prepending decoded bytes to a parse result. -/
def prepend (bs : Bytes) (r : Option (Bytes × Bytes)) : Option (Bytes × Bytes) :=
  r.map fun p => (bs ++ p.1, p.2)

/-- What `jsonEscape` writes for one ASCII byte. -/
def escAscii (b : UInt8) : Bytes :=
  if htmlSafe b then [b]
  else if b == 0x5c || b == 0x22 then [0x5c, b]
  else if b == 0x0a then ascii "\\n"
  else if b == 0x0d then ascii "\\r"
  else if b == 0x09 then ascii "\\t"
  else ascii "\\u00" ++ [hexDigit (b.toNat / 16), hexDigit (b.toNat % 16)]

/-- A member of a marshalled object: its key, the text of its value and the
value the text decodes to. -/
structure Field where
  key : Bytes
  enc : Bytes
  val : JSON

/-- The text of a member. -/
def Field.text (f : Field) : Bytes := jsonString f.key ++ [0x3a] ++ f.enc

/-- The member as the decoder returns it. -/
def Field.decoded (f : Field) : Bytes × JSON := (toValidUTF8 f.key.length f.key, f.val)

/-- The text of the value decodes to the value, whatever follows the member. -/
def Field.ok (f : Field) : Prop :=
  (∀ (c : UInt8) (rest : Bytes) (fuel depth : Nat), (c = 0x2c ∨ c = 0x7d) →
    parseValue (fuel + 1) depth (f.enc ++ c :: rest) = some (f.val, c :: rest))
  ∧ ∃ e0 es, f.enc = e0 :: es ∧ isSpace e0 = false

/-- The text `Marshal` writes for a record with the members `fs`. -/
def objectText (fs : List Field) : Bytes :=
  [0x7b] ++ (ascii ",").intercalate (fs.map Field.text) ++ [0x7d]

/-- The member of a string field with `omitempty`. -/
def sFields (key v : Bytes) : List Field :=
  if v.isEmpty then []
  else [{ key := key, enc := jsonString v, val := JSON.str (toValidUTF8 v.length v) }]

/-- The member of an integer field with `omitempty`. -/
def iFields (key : Bytes) (n : Int) : List Field :=
  if n = 0 then []
  else [{ key := key, enc := jsonInt n,
          val := JSON.num { neg := decide (n < 0), mant := n.natAbs, exp := 0 } }]

/-- The members of a marshalled `StandardClaims`. -/
def claimFields (c : StandardClaims) : List Field :=
  sFields (ascii "aud") c.Audience ++ iFields (ascii "exp") c.ExpiresAt
    ++ sFields (ascii "jti") c.Id ++ iFields (ascii "iat") c.IssuedAt
    ++ sFields (ascii "iss") c.Issuer ++ iFields (ascii "nbf") c.NotBefore
    ++ sFields (ascii "sub") c.Subject

/-- The members of the marshalled header. -/
def headerFields (m : SigningMethod) : List Field :=
  [{ key := ascii "alg", enc := jsonString m.Alg,
     val := JSON.str (toValidUTF8 m.Alg.length m.Alg) },
   { key := ascii "typ", enc := jsonString (ascii "JWT"),
     val := JSON.str (toValidUTF8 (ascii "JWT").length (ascii "JWT")) }]

/-- The claims `VerifyJWT` decodes from a token `CreateJWT` signed. -/
def decodedClaims (now1 now2 : Time) (publisherID : Bytes) : MapClaims :=
  (claimFields (jwtClaims now1 now2 publisherID)).map Field.decoded

/-- The integer a decoded claim stands for. -/
def intValue (n : Int) : JSON := JSON.num { neg := decide (n < 0), mant := n.natAbs, exp := 0 }

/-- The header `VerifyJWT` decodes from a token `CreateJWT` signed. -/
def decodedHeader : JSONMap := (headerFields SigningMethodHS256).map Field.decoded

/-- The token `VerifyJWT` builds from a string `SignedString` produced, before
it is marked valid. -/
def parsedToken (c : StandardClaims) (sig : Bytes) : Token :=
  { Raw := SigningString SigningMethodHS256 c ++ 0x2e :: EncodeSegment sig,
    Method := some SigningMethodHS256,
    Header := decodedHeader,
    Claims := (claimFields c).map Field.decoded,
    Signature := EncodeSegment sig }

/-- Whether the signature of a parsed token verifies under `jwtSecret`, as
`jwt.Parse` checks it. -/
def correctlySigned (tm : TokenManager) (tok : Token) (parts : List Bytes) : Bool :=
  match tok.Method with
  | some method =>
    method.Verify (parts.getD 0 [] ++ [0x2e] ++ parts.getD 1 []) (parts.getD 2 []) tm.jwtSecret
  | none => false

/-! # Theorems -/

/-! ### Base64 round trip -/

theorem uint8_ofNat_toNat (a : UInt8) : UInt8.ofNat a.toNat = a := by
  cases a with
  | mk v =>
    apply UInt8.eq_of_val_eq
    simp [UInt8.ofNat, UInt8.toNat, Fin.ofNat]

theorem uint8_toNat_lt (a : UInt8) : a.toNat < 256 := a.val.isLt

theorem good_url : GoodAlphabet urlAlphabet := ⟨by decide, by decide⟩

theorem good_std : GoodAlphabet stdAlphabet := ⟨by decide, by decide⟩

theorem quantum4 (a b c : UInt8) :
    quantumBytes [a.toNat / 4, a.toNat % 4 * 16 + b.toNat / 16,
      b.toNat % 16 * 4 + c.toNat / 64, c.toNat % 64] = [a, b, c] := by
  have ha := uint8_toNat_lt a
  have hb := uint8_toNat_lt b
  have hc := uint8_toNat_lt c
  simp only [quantumBytes, natToBE, List.getD_cons_zero, List.getD_cons_succ, List.length_cons,
    List.length_nil]
  have e1 : ((a.toNat / 4 * 262144 + (a.toNat % 4 * 16 + b.toNat / 16) * 4096
      + (b.toNat % 16 * 4 + c.toNat / 64) * 64 + c.toNat % 64))
      = a.toNat * 65536 + b.toNat * 256 + c.toNat := by
    omega
  rw [e1]
  have e2 : (a.toNat * 65536 + b.toNat * 256 + c.toNat) / 256 ^ 2 % 256 = a.toNat := by
    norm_num; omega
  have e3 : (a.toNat * 65536 + b.toNat * 256 + c.toNat) / 256 ^ 1 % 256 = b.toNat := by
    norm_num; omega
  have e4 : (a.toNat * 65536 + b.toNat * 256 + c.toNat) / 256 ^ 0 % 256 = c.toNat := by
    norm_num; omega
  rw [e2, e3, e4]
  simp [uint8_ofNat_toNat]

theorem quantum3 (a b : UInt8) :
    quantumBytes [a.toNat / 4, a.toNat % 4 * 16 + b.toNat / 16, b.toNat % 16 * 4] = [a, b] := by
  have ha := uint8_toNat_lt a
  have hb := uint8_toNat_lt b
  simp only [quantumBytes, natToBE, List.getD_cons_zero, List.getD_cons_succ, List.length_cons,
    List.length_nil, List.getD_nil]
  have e1 : ((a.toNat / 4 * 262144 + (a.toNat % 4 * 16 + b.toNat / 16) * 4096
      + (b.toNat % 16 * 4) * 64 + 0)) = a.toNat * 65536 + b.toNat * 256 := by
    omega
  rw [e1]
  have e2 : (a.toNat * 65536 + b.toNat * 256) / 256 ^ 2 % 256 = a.toNat := by
    norm_num; omega
  have e3 : (a.toNat * 65536 + b.toNat * 256) / 256 ^ 1 % 256 = b.toNat := by
    norm_num; omega
  rw [e2, e3]
  simp [uint8_ofNat_toNat]

theorem quantum2 (a : UInt8) :
    quantumBytes [a.toNat / 4, a.toNat % 4 * 16] = [a] := by
  have ha := uint8_toNat_lt a
  simp only [quantumBytes, natToBE, List.getD_cons_zero, List.getD_cons_succ, List.length_cons,
    List.length_nil, List.getD_nil]
  have e1 : ((a.toNat / 4 * 262144 + (a.toNat % 4 * 16) * 4096 + 0 * 64 + 0))
      = a.toNat * 65536 := by
    omega
  rw [e1]
  have e2 : (a.toNat * 65536) / 256 ^ 2 % 256 = a.toNat := by
    norm_num; omega
  rw [e2]
  simp [uint8_ofNat_toNat]

/-- `DecodeString` undoes `EncodeToString`. -/
theorem b64_roundtrip (enc : Encoding) (hg : GoodAlphabet enc.alphabet) (x : Bytes) :
    enc.DecodeString (enc.EncodeToString x) = some x := by
  unfold Encoding.DecodeString
  have hp : b64Value enc.alphabet 61 = none := hg.pad
  induction x using Encoding.EncodeToString.induct enc with
  | case1 => simp [Encoding.EncodeToString, Encoding.decodeLoop]
  | case2 a =>
    have ha := uint8_toNat_lt a
    have h0 := hg.value_char (a.toNat / 4) (by omega)
    have h1 := hg.value_char (a.toNat % 4 * 16) (by omega)
    cases hpad : enc.padding with
    | true =>
      simp [Encoding.EncodeToString, Encoding.decodeLoop, Encoding.pad, hpad, h0, h1, hp,
        isNewline, padChar, quantum2, List.replicate]
    | false =>
      simp [Encoding.EncodeToString, Encoding.decodeLoop, Encoding.pad, hpad, h0, h1, quantum2]
  | case3 a b =>
    have ha := uint8_toNat_lt a
    have hb := uint8_toNat_lt b
    have h0 := hg.value_char (a.toNat / 4) (by omega)
    have h1 := hg.value_char (a.toNat % 4 * 16 + b.toNat / 16) (by omega)
    have h2 := hg.value_char (b.toNat % 16 * 4) (by omega)
    cases hpad : enc.padding with
    | true =>
      simp [Encoding.EncodeToString, Encoding.decodeLoop, Encoding.pad, hpad, h0, h1, h2, hp,
        isNewline, padChar, quantum3, List.replicate]
    | false =>
      simp [Encoding.EncodeToString, Encoding.decodeLoop, Encoding.pad, hpad, h0, h1, h2,
        quantum3]
  | case4 a b c rest ih =>
    have ha := uint8_toNat_lt a
    have hb := uint8_toNat_lt b
    have hc := uint8_toNat_lt c
    have h0 := hg.value_char (a.toNat / 4) (by omega)
    have h1 := hg.value_char (a.toNat % 4 * 16 + b.toNat / 16) (by omega)
    have h2 := hg.value_char (b.toNat % 16 * 4 + c.toNat / 64) (by omega)
    have h3 := hg.value_char (c.toNat % 64) (by omega)
    simp [Encoding.EncodeToString, Encoding.decodeLoop, h0, h1, h2, h3, ih, quantum4]

theorem b64Encode_injective (enc : Encoding) (hg : GoodAlphabet enc.alphabet) (x y : Bytes)
    (h : enc.EncodeToString x = enc.EncodeToString y) : x = y := by
  have hx := b64_roundtrip enc hg x
  rw [h, b64_roundtrip enc hg y] at hx
  exact (Option.some.inj hx).symm

theorem isB64_char (alpha : Bytes) (hg : GoodAlphabet alpha) (v : Nat) (hv : v < 64) :
    isB64 alpha (b64Char alpha v) := by
  simp [isB64, hg.value_char v hv]

/-- An unpadded encoding writes characters of its alphabet only. -/
theorem encodeToString_chars (enc : Encoding) (hg : GoodAlphabet enc.alphabet)
    (hpad : enc.padding = false) (x : Bytes) :
    ∀ c ∈ enc.EncodeToString x, isB64 enc.alphabet c := by
  induction x using Encoding.EncodeToString.induct enc with
  | case1 => simp [Encoding.EncodeToString]
  | case2 a =>
    have ha := uint8_toNat_lt a
    intro c hc
    simp only [Encoding.EncodeToString, Encoding.pad, hpad, Bool.false_eq_true, if_false,
      List.append_nil, List.mem_cons, List.mem_singleton, List.not_mem_nil, or_false] at hc
    rcases hc with rfl | rfl
    · exact isB64_char _ hg _ (by omega)
    · exact isB64_char _ hg _ (by omega)
  | case3 a b =>
    have ha := uint8_toNat_lt a
    have hb := uint8_toNat_lt b
    intro c hc
    simp only [Encoding.EncodeToString, Encoding.pad, hpad, Bool.false_eq_true, if_false,
      List.append_nil, List.mem_cons, List.mem_singleton, List.not_mem_nil, or_false] at hc
    rcases hc with rfl | rfl | rfl
    · exact isB64_char _ hg _ (by omega)
    · exact isB64_char _ hg _ (by omega)
    · exact isB64_char _ hg _ (by omega)
  | case4 a b c rest ih =>
    have ha := uint8_toNat_lt a
    have hb := uint8_toNat_lt b
    have hc := uint8_toNat_lt c
    intro d hd
    simp only [Encoding.EncodeToString, List.mem_cons] at hd
    rcases hd with rfl | rfl | rfl | rfl | hd
    · exact isB64_char _ hg _ (by omega)
    · exact isB64_char _ hg _ (by omega)
    · exact isB64_char _ hg _ (by omega)
    · exact isB64_char _ hg _ (by omega)
    · exact ih d hd

/-- The segment encoding uses alphabet characters only. -/
theorem encodeSegment_chars (x : Bytes) : ∀ c ∈ EncodeSegment x, isB64 urlAlphabet c :=
  encodeToString_chars RawURLEncoding good_url rfl x

/-- `DecodeSegment` undoes `EncodeSegment`. -/
theorem decode_encodeSegment (x : Bytes) : DecodeSegment (EncodeSegment x) = some x :=
  b64_roundtrip RawURLEncoding good_url x

theorem isB64_ne_dot (c : UInt8) (h : isB64 urlAlphabet c) : c ≠ 0x2e := by
  intro hc
  rw [hc] at h
  have : (b64Value urlAlphabet 0x2e).isSome = false := by decide
  rw [isB64, this] at h
  exact absurd h (by decide)

theorem uint8_ext (a b : UInt8) (h : a.toNat = b.toNat) : a = b :=
  UInt8.eq_of_val_eq (Fin.eq_of_val_eq h)

theorem uint8_toNat_ofNat (n : Nat) (h : n < 256) : (UInt8.ofNat n).toNat = n := by
  simp [UInt8.ofNat, UInt8.toNat, Nat.mod_eq_of_lt h]

theorem uint8_beq (a b : UInt8) : (a == b) = decide (a.toNat = b.toNat) := by
  by_cases h : a = b
  · subst h; simp
  · have : a.toNat ≠ b.toNat := fun hn => h (uint8_ext a b hn)
    simp [h, this]

theorem uint8_eq_ofNat (b : UInt8) (n : Nat) (hn : n < 256) (h : b.toNat = n) :
    UInt8.ofNat n = b := by
  apply uint8_ext
  rw [uint8_toNat_ofNat n hn, h]

theorem inRange_iff (lo hi : Nat) (b : UInt8) :
    inRange lo hi b = true ↔ lo ≤ b.toNat ∧ b.toNat ≤ hi := by
  simp [inRange]

theorem ite_some_eq {α : Type} {c : Prop} [Decidable c] {a b : α}
    (h : (if c then some a else none) = some b) : c ∧ a = b := by
  split at h
  · exact ⟨‹c›, Option.some.inj h⟩
  · exact absurd h (by simp)

/-- What a successful `decodeRune` says about its input. -/
theorem decodeRune_spec (s : Bytes) (r size : Nat) (h : decodeRune s = some (r, size)) :
    1 ≤ size ∧ size ≤ s.length
    ∧ (∀ t, decodeRune (s.take size ++ t) = some (r, size))
    ∧ (0x80 ≤ r → s.take size = encodeRune r)
    ∧ (r < 0x80 ↔ size = 1) := by
  cases s with
  | nil => simp [decodeRune] at h
  | cons b0 rest =>
    have hb0 := uint8_toNat_lt b0
    simp only [decodeRune] at h
    split at h
    · -- ASCII
      rename_i hx
      simp only [Option.some.injEq, Prod.mk.injEq] at h
      obtain ⟨rfl, rfl⟩ := h
      refine ⟨by omega, by simp, ?_, ?_, ?_⟩
      · intro t
        simp [decodeRune, hx]
      · intro h80; omega
      · simp [hx]
    · split at h
      · -- two bytes
        rename_i hx1 hx2
        cases rest with
        | nil => simp at h
        | cons b1 rest1 =>
          have hb1 := uint8_toNat_lt b1
          simp only at h
          split at h
          · rename_i hr
            rw [inRange_iff] at hr
            simp only [Option.some.injEq, Prod.mk.injEq] at h
            obtain ⟨rfl, rfl⟩ := h
            refine ⟨by omega, by simp, ?_, ?_, ?_⟩
            · intro t
              have hr' : inRange 0x80 0xBF b1 = true := (inRange_iff _ _ _).mpr hr
              simp [decodeRune, hx1, hx2, hr']
            · intro _
              have e1 : (b0.toNat % 32 * 64 + b1.toNat % 64) / 64 = b0.toNat % 32 := by omega
              have e2 : (b0.toNat % 32 * 64 + b1.toNat % 64) % 64 = b1.toNat % 64 := by omega
              have c1 : ¬ (b0.toNat % 32 * 64 + b1.toNat % 64 < 0x80) := by omega
              have c2 : b0.toNat % 32 * 64 + b1.toNat % 64 < 0x800 := by omega
              simp only [encodeRune, c1, c2, if_false, if_true, e1, e2, List.take]
              rw [uint8_eq_ofNat b0 _ (by omega) (by omega),
                uint8_eq_ofNat b1 _ (by omega) (by omega)]
            · constructor
              · intro hlt; omega
              · intro h2; omega
          · simp at h
      · split at h
        · -- three bytes
          rename_i hx1 hx2 hx3
          cases rest with
          | nil => simp at h
          | cons b1 rest1 =>
            cases rest1 with
            | nil => simp at h
            | cons b2 rest2 =>
              have hb1 := uint8_toNat_lt b1
              have hb2 := uint8_toNat_lt b2
              obtain ⟨hr, heq⟩ := ite_some_eq h
              · have hr' := hr
                simp only [Bool.and_eq_true, inRange_iff] at hr
                simp only [Prod.mk.injEq] at heq
                obtain ⟨rfl, rfl⟩ := heq
                have hlo : (if b0.toNat = 0xE0 then 0xA0 else 0x80) ≤ b1.toNat := hr.1.1
                have hhi : b1.toNat ≤ (if b0.toNat = 0xED then 0x9F else 0xBF) := hr.1.2
                have hlo' : 0x80 ≤ b1.toNat ∧ (b0.toNat = 0xE0 → 0xA0 ≤ b1.toNat) := by
                  split at hlo <;> omega
                have hhi' : b1.toNat ≤ 0xBF ∧ (b0.toNat = 0xED → b1.toNat ≤ 0x9F) := by
                  split at hhi <;> omega
                refine ⟨by omega, by simp, ?_, ?_, ?_⟩
                · intro t
                  simp only [List.take, List.cons_append, List.nil_append, decodeRune, hx1, hx2,
                    hx3, if_false, if_true]
                  rw [if_pos hr']
                  simp
                · intro _
                  have e1 : (b0.toNat % 16 * 4096 + b1.toNat % 64 * 64 + b2.toNat % 64) / 4096
                      = b0.toNat % 16 := by omega
                  have e2 : (b0.toNat % 16 * 4096 + b1.toNat % 64 * 64 + b2.toNat % 64) / 64 % 64
                      = b1.toNat % 64 := by omega
                  have e3 : (b0.toNat % 16 * 4096 + b1.toNat % 64 * 64 + b2.toNat % 64) % 64
                      = b2.toNat % 64 := by omega
                  have c1 : ¬ (b0.toNat % 16 * 4096 + b1.toNat % 64 * 64 + b2.toNat % 64 < 0x80) := by
                    omega
                  have c2 : ¬ (b0.toNat % 16 * 4096 + b1.toNat % 64 * 64 + b2.toNat % 64 < 0x800) := by
                    omega
                  have c3 : ¬ ((0xD800 ≤ b0.toNat % 16 * 4096 + b1.toNat % 64 * 64 + b2.toNat % 64
                      ∧ b0.toNat % 16 * 4096 + b1.toNat % 64 * 64 + b2.toNat % 64 < 0xE000)
                      ∨ 0x10FFFF < b0.toNat % 16 * 4096 + b1.toNat % 64 * 64 + b2.toNat % 64) := by
                    omega
                  have c4 : b0.toNat % 16 * 4096 + b1.toNat % 64 * 64 + b2.toNat % 64 < 0x10000 := by
                    omega
                  simp only [encodeRune, c1, c2, c3, c4, if_false, if_true, e1, e2, e3, List.take]
                  rw [uint8_eq_ofNat b0 _ (by omega) (by omega),
                    uint8_eq_ofNat b1 _ (by omega) (by omega),
                    uint8_eq_ofNat b2 _ (by omega) (by omega)]
                · constructor
                  · intro hlt; omega
                  · intro h2; omega
        · split at h
          · -- four bytes
            rename_i hx1 hx2 hx3 hx4
            cases rest with
            | nil => simp at h
            | cons b1 rest1 =>
              cases rest1 with
              | nil => simp at h
              | cons b2 rest2 =>
                cases rest2 with
                | nil => simp at h
                | cons b3 rest3 =>
                  have hb1 := uint8_toNat_lt b1
                  have hb2 := uint8_toNat_lt b2
                  have hb3 := uint8_toNat_lt b3
                  obtain ⟨hr, heq⟩ := ite_some_eq h
                  · have hr' := hr
                    simp only [Bool.and_eq_true, inRange_iff] at hr
                    simp only [Prod.mk.injEq] at heq
                    obtain ⟨rfl, rfl⟩ := heq
                    have hlo : (if b0.toNat = 0xF0 then 0x90 else 0x80) ≤ b1.toNat := hr.1.1.1
                    have hhi : b1.toNat ≤ (if b0.toNat = 0xF4 then 0x8F else 0xBF) := hr.1.1.2
                    have hlo' : 0x80 ≤ b1.toNat ∧ (b0.toNat = 0xF0 → 0x90 ≤ b1.toNat) := by
                      split at hlo <;> omega
                    have hhi' : b1.toNat ≤ 0xBF ∧ (b0.toNat = 0xF4 → b1.toNat ≤ 0x8F) := by
                      split at hhi <;> omega
                    refine ⟨by omega, by simp, ?_, ?_, ?_⟩
                    · intro t
                      simp only [List.take, List.cons_append, List.nil_append, decodeRune, hx1,
                        hx2, hx3, hx4, if_false, if_true]
                      rw [if_pos hr']
                      simp
                    · intro _
                      have e1 : (b0.toNat % 8 * 262144 + b1.toNat % 64 * 4096 + b2.toNat % 64 * 64
                          + b3.toNat % 64) / 262144 = b0.toNat % 8 := by omega
                      have e2 : (b0.toNat % 8 * 262144 + b1.toNat % 64 * 4096 + b2.toNat % 64 * 64
                          + b3.toNat % 64) / 4096 % 64 = b1.toNat % 64 := by omega
                      have e3 : (b0.toNat % 8 * 262144 + b1.toNat % 64 * 4096 + b2.toNat % 64 * 64
                          + b3.toNat % 64) / 64 % 64 = b2.toNat % 64 := by omega
                      have e4 : (b0.toNat % 8 * 262144 + b1.toNat % 64 * 4096 + b2.toNat % 64 * 64
                          + b3.toNat % 64) % 64 = b3.toNat % 64 := by omega
                      have c1 : ¬ (b0.toNat % 8 * 262144 + b1.toNat % 64 * 4096 + b2.toNat % 64 * 64
                          + b3.toNat % 64 < 0x80) := by omega
                      have c2 : ¬ (b0.toNat % 8 * 262144 + b1.toNat % 64 * 4096 + b2.toNat % 64 * 64
                          + b3.toNat % 64 < 0x800) := by omega
                      have c3 : ¬ ((0xD800 ≤ b0.toNat % 8 * 262144 + b1.toNat % 64 * 4096
                          + b2.toNat % 64 * 64 + b3.toNat % 64
                          ∧ b0.toNat % 8 * 262144 + b1.toNat % 64 * 4096 + b2.toNat % 64 * 64
                            + b3.toNat % 64 < 0xE000)
                          ∨ 0x10FFFF < b0.toNat % 8 * 262144 + b1.toNat % 64 * 4096
                            + b2.toNat % 64 * 64 + b3.toNat % 64) := by omega
                      have c4 : ¬ (b0.toNat % 8 * 262144 + b1.toNat % 64 * 4096 + b2.toNat % 64 * 64
                          + b3.toNat % 64 < 0x10000) := by omega
                      simp only [encodeRune, c1, c2, c3, c4, if_false, e1, e2, e3, e4, List.take]
                      rw [uint8_eq_ofNat b0 _ (by omega) (by omega),
                        uint8_eq_ofNat b1 _ (by omega) (by omega),
                        uint8_eq_ofNat b2 _ (by omega) (by omega),
                        uint8_eq_ofNat b3 _ (by omega) (by omega)]
                    · constructor
                      · intro hlt; omega
                      · intro h2; omega
          · simp at h

/-! ### JSON strings: decoding what `Marshal` wrote -/

theorem hexValue_hexDigit : ∀ n, n < 16 → hexValue (hexDigit n) = some n := by decide

theorem getu4_escape (a b c d : UInt8) (X : Bytes) (x y z w : Nat)
    (ha : hexValue a = some x) (hb : hexValue b = some y) (hc : hexValue c = some z)
    (hd : hexValue d = some w) :
    getu4 (0x5c :: 0x75 :: a :: b :: c :: d :: X) = some (x * 4096 + y * 256 + z * 16 + w) := by
  simp [getu4, ha, hb, hc, hd]

theorem parseString_uescape (a b c d : UInt8) (X : Bytes) (rr f : Nat)
    (hg : getu4 (0x5c :: 0x75 :: a :: b :: c :: d :: X) = some rr)
    (hns : ¬ (0xD800 ≤ rr ∧ rr < 0xE000)) :
    parseString (f + 1) (0x5c :: 0x75 :: a :: b :: c :: d :: X)
      = prepend (encodeRune rr) (parseString f X) := by
  rw [parseString]
  simp only [hg]
  simp [hns, prepend]

theorem parseString_u00 (b : UInt8) (hb : b.toNat < 0x80) (f : Nat) (X : Bytes) :
    parseString (f + 1)
      (ascii "\\u00" ++ [hexDigit (b.toNat / 16), hexDigit (b.toNat % 16)] ++ X)
      = prepend [b] (parseString f X) := by
  have h0 : hexValue 0x30 = some 0 := by decide
  have h1 := hexValue_hexDigit (b.toNat / 16) (by omega)
  have h2 := hexValue_hexDigit (b.toNat % 16) (by omega)
  have hg := getu4_escape 0x30 0x30 _ _ X _ _ _ _ h0 h0 h1 h2
  have e : 0 * 4096 + 0 * 256 + b.toNat / 16 * 16 + b.toNat % 16 = b.toNat := by omega
  rw [e] at hg
  have he : encodeRune b.toNat = [b] := by
    simp [encodeRune, hb, uint8_ofNat_toNat]
  have := parseString_uescape _ _ _ _ X b.toNat f hg (by omega)
  rw [he] at this
  simpa [ascii] using this

theorem parseString_ufffd (f : Nat) (X : Bytes) :
    parseString (f + 1) (ascii "\\ufffd" ++ X) = prepend [0xEF, 0xBF, 0xBD] (parseString f X) := by
  have hf : hexValue 0x66 = some 15 := by decide
  have hd : hexValue 0x64 = some 13 := by decide
  have hg := getu4_escape 0x66 0x66 0x66 0x64 X _ _ _ _ hf hf hf hd
  have := parseString_uescape _ _ _ _ X _ f hg (by decide)
  have he : encodeRune (15 * 4096 + 15 * 256 + 15 * 16 + 13) = [0xEF, 0xBF, 0xBD] := by decide
  rw [he] at this
  simpa [ascii] using this

theorem parseString_u202x (f : Nat) (X : Bytes) (r : Nat) (hr : r = 0x2028 ∨ r = 0x2029) :
    parseString (f + 1) (ascii "\\u202" ++ [hexDigit (r % 16)] ++ X)
      = prepend (encodeRune r) (parseString f X) := by
  have h2 : hexValue 0x32 = some 2 := by decide
  have h0 : hexValue 0x30 = some 0 := by decide
  have h3 := hexValue_hexDigit (r % 16) (by omega)
  have hg := getu4_escape 0x32 0x30 0x32 _ X _ _ _ _ h2 h0 h2 h3
  have e : 2 * 4096 + 0 * 256 + 2 * 16 + r % 16 = r := by omega
  rw [e] at hg
  have := parseString_uescape _ _ _ _ X r f hg (by omega)
  simpa [ascii] using this

theorem escAscii_length_pos (b : UInt8) : 1 ≤ (escAscii b).length := by
  unfold escAscii
  split
  · simp
  · split
    · simp
    · split
      · simp [ascii]
      · split
        · simp [ascii]
        · split
          · simp [ascii]
          · simp [ascii]

theorem parseString_plain (b : UInt8) (h1 : b ≠ 0x22) (h2 : b ≠ 0x5c) (h3 : 0x20 ≤ b.toNat)
    (h4 : b.toNat < 0x80) (f : Nat) (X : Bytes) :
    parseString (f + 1) (b :: X) = prepend [b] (parseString f X) := by
  have h3' : ¬ b.toNat < 0x20 := by omega
  simp [parseString, h1, h2, h3', h4, prepend]

theorem parseString_ascii (b : UInt8) (hb : b.toNat < 0x80) (f : Nat) (X : Bytes) :
    parseString (f + 1) (escAscii b ++ X) = prepend [b] (parseString f X) := by
  unfold escAscii
  by_cases hs : htmlSafe b = true
  · rw [if_pos hs]
    simp only [htmlSafe, Bool.and_eq_true, decide_eq_true_eq, bne_iff_ne, ne_eq] at hs
    exact parseString_plain b hs.1.1.1.1.2 hs.2 hs.1.1.1.1.1.1 hb f X
  · rw [if_neg hs]
    by_cases hq : (b == 0x5c || b == 0x22) = true
    · rw [if_pos hq]
      simp only [Bool.or_eq_true, beq_iff_eq] at hq
      rcases hq with rfl | rfl
      · simp [parseString, prepend]
      · simp [parseString, prepend]
    · rw [if_neg hq]
      by_cases hn : (b == 0x0a) = true
      · rw [if_pos hn]
        simp only [beq_iff_eq] at hn
        subst hn
        simp [parseString, prepend, ascii]
      · rw [if_neg hn]
        by_cases hr : (b == 0x0d) = true
        · rw [if_pos hr]
          simp only [beq_iff_eq] at hr
          subst hr
          simp [parseString, prepend, ascii]
        · rw [if_neg hr]
          by_cases ht : (b == 0x09) = true
          · rw [if_pos ht]
            simp only [beq_iff_eq] at ht
            subst ht
            simp [parseString, prepend, ascii]
          · rw [if_neg ht]
            exact parseString_u00 b hb f X

theorem parseString_literal (s : Bytes) (b : UInt8) (rest : Bytes) (hs : s = b :: rest)
    (hb : ¬ b.toNat < 0x80) (r size : Nat) (hd : decodeRune s = some (r, size))
    (f : Nat) (X : Bytes) :
    parseString (f + 1) (s.take size ++ X) = prepend (s.take size) (parseString f X) := by
  obtain ⟨h1, h2, hpre, _, _⟩ := decodeRune_spec s r size hd
  subst hs
  have hb' := uint8_toNat_lt b
  have hsz : size = (size - 1) + 1 := by omega
  have htake : (b :: rest).take size = b :: rest.take (size - 1) := by
    rw [hsz]; simp
  have hdec := hpre X
  rw [htake] at hdec ⊢
  have hlen : (rest.take (size - 1)).length = size - 1 := by
    simp only [List.length_take, List.length_cons] at h2 ⊢
    omega
  have hq : b ≠ 0x22 := by
    intro h; apply hb; rw [h]; decide
  have hbs : b ≠ 0x5c := by
    intro h; apply hb; rw [h]; decide
  have h20 : ¬ b.toNat < 0x20 := by omega
  rw [List.cons_append]
  simp only [parseString, beq_iff_eq, hq, hbs, if_false, h20, hb]
  rw [List.cons_append] at hdec
  rw [hdec]
  simp only
  have hdrop : (rest.take (size - 1) ++ X).drop (size - 1) = X := by
    rw [List.drop_append_eq_append_drop, hlen]
    simp [List.drop_eq_nil_of_le (Nat.le_of_eq hlen)]
  have htk : (b :: (rest.take (size - 1) ++ X)).take size = b :: rest.take (size - 1) := by
    rw [hsz]
    simp only [List.take_succ_cons, Nat.add_sub_cancel]
    rw [List.take_append_of_le_length (by omega)]
    simp [List.take_take]
  rw [hdrop, htk]
  rfl

theorem prepend_some (bs out tail : Bytes) :
    prepend bs (some (out, tail)) = some (bs ++ out, tail) := rfl

/-- Decoding the string literal `Marshal` writes for `s` gives `s` with its
malformed bytes replaced. -/
theorem parseString_jsonEscape (n : Nat) : ∀ (s tail : Bytes) (fuel : Nat), s.length ≤ n →
    (jsonEscape n s).length < fuel →
    parseString fuel (jsonEscape n s ++ 0x22 :: tail) = some (toValidUTF8 n s, tail) := by
  induction n with
  | zero =>
    intro s tail fuel hs hf
    obtain ⟨f, rfl⟩ : ∃ f, fuel = f + 1 := ⟨fuel - 1, by omega⟩
    simp [jsonEscape, toValidUTF8, parseString]
  | succ n ih =>
    intro s tail fuel hs hf
    obtain ⟨f, rfl⟩ : ∃ f, fuel = f + 1 := ⟨fuel - 1, by omega⟩
    cases s with
    | nil => simp [jsonEscape, toValidUTF8, parseString]
    | cons b rest =>
      have hrest : rest.length ≤ n := by simpa using hs
      by_cases hb : b.toNat < 0x80
      · have hj : jsonEscape (n + 1) (b :: rest) = escAscii b ++ jsonEscape n rest := by
          simp [jsonEscape, hb, escAscii]
        have hd : decodeRune (b :: rest) = some (b.toNat, 1) := by
          simp [decodeRune, hb]
        have ht : toValidUTF8 (n + 1) (b :: rest) = [b] ++ toValidUTF8 n rest := by
          simp [toValidUTF8, hd]
        rw [hj] at hf ⊢
        rw [ht, List.append_assoc, parseString_ascii b hb]
        have hlen := escAscii_length_pos b
        rw [ih rest tail f hrest (by simp only [List.length_append] at hf; omega), prepend_some]
      · cases hd : decodeRune (b :: rest) with
        | none =>
          have hj : jsonEscape (n + 1) (b :: rest) = ascii "\\ufffd" ++ jsonEscape n rest := by
            simp [jsonEscape, hb, hd]
          have ht : toValidUTF8 (n + 1) (b :: rest)
              = [0xEF, 0xBF, 0xBD] ++ toValidUTF8 n rest := by
            simp [toValidUTF8, hd]
          rw [hj] at hf ⊢
          rw [ht, List.append_assoc, parseString_ufffd]
          rw [ih rest tail f hrest (by simp [ascii] at hf; omega), prepend_some]
        | some p =>
          obtain ⟨r, size⟩ := p
          obtain ⟨h1, h2, _, henc, hsz⟩ := decodeRune_spec _ r size hd
          have hr80 : 0x80 ≤ r := by
            by_contra hlt
            have hsize : size = 1 := hsz.mp (by omega)
            subst hsize
            simp only [decodeRune, hb, if_false] at hd
            split at hd
            · split at hd
              · obtain ⟨_, heq⟩ := ite_some_eq hd
                simp at heq
              · simp at hd
            · split at hd
              · split at hd
                · obtain ⟨_, heq⟩ := ite_some_eq hd
                  simp at heq
                · simp at hd
              · split at hd
                · split at hd
                  · obtain ⟨_, heq⟩ := ite_some_eq hd
                    simp at heq
                  · simp at hd
                · simp at hd
          have hdrop : (rest.drop (size - 1)).length ≤ n := by
            simp only [List.length_drop]; omega
          have ht : toValidUTF8 (n + 1) (b :: rest)
              = (b :: rest).take size ++ toValidUTF8 n (rest.drop (size - 1)) := by
            simp [toValidUTF8, hd]
          by_cases hr : r = 0x2028 ∨ r = 0x2029
          · have hj : jsonEscape (n + 1) (b :: rest)
                = ascii "\\u202" ++ [hexDigit (r % 16)] ++ jsonEscape n (rest.drop (size - 1)) := by
              simp [jsonEscape, hb, hd, hr]
            rw [hj] at hf ⊢
            rw [ht, List.append_assoc, parseString_u202x f _ r hr, henc hr80]
            rw [ih _ tail f hdrop (by simp [ascii] at hf; omega), prepend_some]
          · have hj : jsonEscape (n + 1) (b :: rest)
                = (b :: rest).take size ++ jsonEscape n (rest.drop (size - 1)) := by
              simp [jsonEscape, hb, hd, hr]
            rw [hj] at hf ⊢
            rw [ht, List.append_assoc, parseString_literal _ b rest rfl hb r size hd]
            rw [ih _ tail f hdrop (by
              simp only [List.length_append, List.length_take, List.length_cons] at hf
              simp only [List.length_cons] at h2
              omega), prepend_some]

/-! ### JSON numbers: decoding what `Marshal` wrote for an integer -/

theorem takeWhile_append_stop (p : UInt8 → Bool) (ds : Bytes) (c : UInt8) (rest : Bytes)
    (hall : ∀ d ∈ ds, p d = true) (hc : p c = false) :
    (ds ++ c :: rest).takeWhile p = ds ∧ (ds ++ c :: rest).dropWhile p = c :: rest := by
  induction ds with
  | nil => simp [List.takeWhile, List.dropWhile, hc]
  | cons d ds ih =>
    have hd : p d = true := hall d (by simp)
    have := ih (fun x hx => hall x (by simp [hx]))
    simp [List.takeWhile, List.dropWhile, hd, this]

theorem roundF64_exact (n : Nat) (h : n < 2 ^ 53) : roundF64 n 1 = some (n, 0) := by
  unfold roundF64
  rw [if_pos ⟨rfl, h⟩]

theorem decimalToF64_int (neg : Bool) (n : Nat) (h : n < 2 ^ 53) :
    decimalToF64 neg n 0 = some { neg := neg, mant := n, exp := 0 } := by
  unfold decimalToF64
  simp [roundF64_exact n h]

theorem parseNumber_digits (neg : Bool) (ds : Bytes) (c : UInt8) (rest : Bytes)
    (hne : ds ≠ []) (hall : ∀ d ∈ ds, isDigit d = true)
    (hlead : ds.head? = some 0x30 → ds.length = 1)
    (hc : c = 0x2c ∨ c = 0x7d) (hsmall : digitsToNat ds < 2 ^ 53) :
    parseNumber ((if neg then [0x2d] else []) ++ ds ++ c :: rest)
      = some ({ neg := neg, mant := digitsToNat ds, exp := 0 }, c :: rest) := by
  have hcd : isDigit c = false := by rcases hc with rfl | rfl <;> decide
  obtain ⟨htw, hdw⟩ := takeWhile_append_stop isDigit ds c rest hall hcd
  have hfrac : parseFrac (c :: rest) = some ([], c :: rest) := by
    have : c ≠ 0x2e := by rcases hc with rfl | rfl <;> decide
    simp [parseFrac, this]
  have hexp : parseExp (c :: rest) = some (0, c :: rest) := by
    have h1 : c ≠ 0x65 := by rcases hc with rfl | rfl <;> decide
    have h2 : c ≠ 0x45 := by rcases hc with rfl | rfl <;> decide
    simp [parseExp, h1, h2]
  have hbad : (ds.isEmpty || (ds.head? == some 0x30 && ds.length != 1)) = false := by
    cases ds with
    | nil => exact absurd rfl hne
    | cons d0 ds' =>
      by_cases h0 : d0 = 0x30
      · have := hlead (by simp [h0])
        have hnil : ds' = [] := by
          simp only [List.length_cons] at this
          exact List.length_eq_zero.mp (by omega)
        simp [h0, hnil]
      · simp [h0]
  have hhead : ∀ t : Bytes, (ds ++ t).head? ≠ some 0x2d := by
    intro t
    cases ds with
    | nil => exact absurd rfl hne
    | cons d0 ds' =>
      have hd0 : isDigit d0 = true := hall d0 (by simp)
      intro h
      simp only [List.cons_append, List.head?_cons, Option.some.injEq] at h
      rw [h] at hd0
      revert hd0
      decide
  have core : ∀ (s1 : Bytes) (ng : Bool), s1 = ds ++ c :: rest →
      (if (s1.takeWhile isDigit).isEmpty
          || ((s1.takeWhile isDigit).head? == some 0x30 && (s1.takeWhile isDigit).length != 1)
        then none
        else
          match parseFrac (s1.dropWhile isDigit) with
          | none => none
          | some (fracPart, s3) =>
            match parseExp s3 with
            | none => none
            | some (e, s4) =>
              (decimalToF64 ng (digitsToNat (s1.takeWhile isDigit ++ fracPart))
                (e - (fracPart.length : Int))).map fun f => (f, s4))
        = some ({ neg := ng, mant := digitsToNat ds, exp := 0 }, c :: rest) := by
    intro s1 ng hs1
    subst hs1
    rw [htw, hdw, hbad]
    simp only [Bool.false_eq_true, if_false, hfrac, hexp, List.append_nil, List.length_nil,
      Int.ofNat_zero, Int.sub_zero, Nat.cast_zero, sub_zero]
    rw [decimalToF64_int ng _ hsmall]
    rfl
  cases neg with
  | false =>
    simp only [Bool.false_eq_true, if_false, List.nil_append]
    unfold parseNumber
    have hneg : ((ds ++ c :: rest).head? == some 0x2d) = false := by
      simpa using hhead (c :: rest)
    simp only [hneg, Bool.false_eq_true, if_false]
    exact core _ false rfl
  | true =>
    simp only [if_true]
    unfold parseNumber
    have hneg : (([0x2d] ++ ds ++ c :: rest).head? == some 0x2d) = true := by simp
    simp only [hneg, if_true]
    have hdrop : ([0x2d] ++ ds ++ c :: rest).drop 1 = ds ++ c :: rest := by simp
    rw [hdrop]
    exact core _ true rfl

theorem digitsToNat_snoc (ds : Bytes) (d : UInt8) :
    digitsToNat (ds ++ [d]) = digitsToNat ds * 10 + (d.toNat - 48) := by
  simp [digitsToNat, List.foldl_append]

theorem natDigits_spec (fuel : Nat) : ∀ n, n < fuel →
    natDigits fuel n ≠ [] ∧ (∀ d ∈ natDigits fuel n, isDigit d = true)
    ∧ digitsToNat (natDigits fuel n) = n
    ∧ ((natDigits fuel n).head? = some 0x30 → (natDigits fuel n).length = 1) := by
  induction fuel with
  | zero => intro n h; omega
  | succ fuel ih =>
    intro n h
    by_cases h10 : n < 10
    · have hd : natDigits (fuel + 1) n = [UInt8.ofNat (48 + n)] := by
        simp [natDigits, h10]
      have ht : (UInt8.ofNat (48 + n)).toNat = 48 + n := uint8_toNat_ofNat _ (by omega)
      rw [hd]
      refine ⟨by simp, ?_, ?_, by simp⟩
      · intro d hdm
        simp only [List.mem_singleton] at hdm
        subst hdm
        simp only [isDigit, ht, Bool.and_eq_true, decide_eq_true_eq]
        omega
      · simp [digitsToNat, ht]
    · have hd : natDigits (fuel + 1) n
          = natDigits fuel (n / 10) ++ [UInt8.ofNat (48 + n % 10)] := by
        simp [natDigits, h10]
      have ht : (UInt8.ofNat (48 + n % 10)).toNat = 48 + n % 10 :=
        uint8_toNat_ofNat _ (by omega)
      obtain ⟨hne, hall, hval, hlead⟩ := ih (n / 10) (by omega)
      rw [hd]
      refine ⟨by simp, ?_, ?_, ?_⟩
      · intro d hdm
        simp only [List.mem_append, List.mem_singleton] at hdm
        rcases hdm with hdm | rfl
        · exact hall d hdm
        · simp only [isDigit, ht, Bool.and_eq_true, decide_eq_true_eq]
          omega
      · rw [digitsToNat_snoc, hval, ht]
        omega
      · intro hh
        exfalso
        cases hds : natDigits fuel (n / 10) with
        | nil => exact hne hds
        | cons a as =>
          rw [hds] at hh hlead hval
          simp only [List.cons_append, List.head?_cons, Option.some.injEq] at hh
          have hl := hlead (by simp [hh])
          have hnil : as = [] := by
            simp only [List.length_cons] at hl
            exact List.length_eq_zero.mp (by omega)
          rw [hnil, hh] at hval
          have h0 : digitsToNat [0x30] = 0 := by decide
          rw [h0] at hval
          omega

/-- Decoding the number `Marshal` wrote for an integer below `2^53` in
magnitude. -/
theorem parseNumber_jsonInt (n : Int) (hn : n.natAbs < 2 ^ 53) (c : UInt8) (rest : Bytes)
    (hc : c = 0x2c ∨ c = 0x7d) :
    parseNumber (jsonInt n ++ c :: rest)
      = some ({ neg := decide (n < 0), mant := n.natAbs, exp := 0 }, c :: rest) := by
  obtain ⟨hne, hall, hval, hlead⟩ := natDigits_spec (n.natAbs + 1) n.natAbs (by omega)
  have := parseNumber_digits (decide (n < 0)) _ c rest hne hall hlead hc (by rw [hval]; exact hn)
  rw [hval] at this
  rw [← this]
  congr 1
  unfold jsonInt
  by_cases h : n < 0
  · simp [h]
  · simp [h]

theorem toInt64_int (n : Int) (hn : n.natAbs < 2 ^ 53) :
    F64.toInt64 { neg := decide (n < 0), mant := n.natAbs, exp := 0 } = n := by
  unfold F64.toInt64
  simp only [le_refl, if_true, Int.toNat_zero, pow_zero, mul_one, decide_eq_true_eq]
  have h53 : (2 : Int) ^ 53 = 9007199254740992 := by norm_num
  have h63 : (2 : Int) ^ 63 = 9223372036854775808 := by norm_num
  have h53n : (2 : Nat) ^ 53 = 9007199254740992 := by norm_num
  rw [h53n] at hn
  rw [h63]
  by_cases h : n < 0
  · simp only [h, if_true]
    have : -(n.natAbs : Int) = n := by omega
    rw [this]
    rw [if_pos (by omega)]
  · simp only [h, if_false]
    have : (n.natAbs : Int) = n := by omega
    rw [this]
    rw [if_pos (by omega)]

/-! ### JSON objects: decoding what `Marshal` wrote for a record -/

theorem skipSpace_cons (c : UInt8) (rest : Bytes) (h : isSpace c = false) :
    skipSpace (c :: rest) = c :: rest := by
  simp [skipSpace, List.dropWhile, h]

theorem parseValue_string (v : Bytes) (tail : Bytes) (fuel depth : Nat) :
    parseValue (fuel + 1) depth (jsonString v ++ tail)
      = some (JSON.str (toValidUTF8 v.length v), tail) := by
  unfold jsonString
  simp only [List.cons_append, List.nil_append, List.append_assoc, parseValue]
  have h := parseString_jsonEscape v.length v tail
    ((jsonEscape v.length v ++ 0x22 :: tail).length + 1) (le_refl _) (by simp; omega)
  rw [h]
  simp

theorem stringField_ok (key v : Bytes) :
    Field.ok { key := key, enc := jsonString v, val := JSON.str (toValidUTF8 v.length v) } := by
  refine ⟨?_, 0x22, jsonEscape v.length v ++ [0x22], by simp [jsonString], by decide⟩
  intro c rest fuel depth _
  exact parseValue_string v (c :: rest) fuel depth

theorem jsonInt_head (n : Int) :
    ∃ d0 ds, jsonInt n = d0 :: ds ∧ (d0 = 0x2d ∨ isDigit d0 = true) := by
  obtain ⟨hne, hall, _, _⟩ := natDigits_spec (n.natAbs + 1) n.natAbs (by omega)
  unfold jsonInt
  by_cases h : n < 0
  · exact ⟨0x2d, natDigits (n.natAbs + 1) n.natAbs, by simp [h], Or.inl rfl⟩
  · cases hds : natDigits (n.natAbs + 1) n.natAbs with
    | nil => exact absurd hds hne
    | cons d0 ds =>
      refine ⟨d0, ds, by simp [h, hds], Or.inr ?_⟩
      exact hall d0 (by simp [hds])

theorem intField_ok (key : Bytes) (n : Int) (hn : n.natAbs < 2 ^ 53) :
    Field.ok { key := key, enc := jsonInt n,
               val := JSON.num { neg := decide (n < 0), mant := n.natAbs, exp := 0 } } := by
  obtain ⟨d0, ds, hj, hd0⟩ := jsonInt_head n
  have hfacts : d0 ≠ 0x7b ∧ d0 ≠ 0x5b ∧ d0 ≠ 0x22 ∧ d0 ≠ 0x74 ∧ d0 ≠ 0x66 ∧ d0 ≠ 0x6e
      ∧ isSpace d0 = false ∧ (d0 == 0x2d || isDigit d0) = true := by
    rcases hd0 with rfl | hd
    · decide
    · have hr : 0x30 ≤ d0.toNat ∧ d0.toNat ≤ 0x39 := by
        simpa [isDigit] using hd
      have ne : ∀ k : UInt8, (k.toNat < 0x30 ∨ 0x39 < k.toNat) → d0 ≠ k := by
        intro k hk h; rw [h] at hr; omega
      refine ⟨ne _ (by decide), ne _ (by decide), ne _ (by decide), ne _ (by decide),
        ne _ (by decide), ne _ (by decide), ?_, by simp [hd]⟩
      simp only [isSpace, Bool.or_eq_false_iff, beq_eq_false_iff_ne, ne_eq]
      exact ⟨⟨⟨ne _ (by decide), ne _ (by decide)⟩, ne _ (by decide)⟩, ne _ (by decide)⟩
  obtain ⟨h1, h2, h3, h4, h5, h6, hsp, hnum⟩ := hfacts
  refine ⟨?_, d0, ds, hj, hsp⟩
  intro c rest fuel depth hc
  have hp := parseNumber_jsonInt n hn c rest hc
  simp only
  rw [hj] at hp ⊢
  rw [List.cons_append] at hp ⊢
  simp only [parseValue, beq_iff_eq, h1, h2, h3, if_false]
  have t1 : ((d0 :: (ds ++ c :: rest)).take 4 == ascii "true") = false := by
    cases hds : ds ++ c :: rest with
    | nil => simp [ascii]
    | cons a as =>
      cases as with
      | nil => simp [ascii]
      | cons b bs =>
        cases bs with
        | nil => simp [ascii]
        | cons e es => simp [ascii, h4]
  have t2 : ((d0 :: (ds ++ c :: rest)).take 5 == ascii "false") = false := by
    cases hds : ds ++ c :: rest with
    | nil => simp [ascii]
    | cons a as =>
      cases as with
      | nil => simp [ascii]
      | cons b bs =>
        cases bs with
        | nil => simp [ascii]
        | cons e es =>
          cases es with
          | nil => simp [ascii]
          | cons g gs => simp [ascii, h5]
  have t3 : ((d0 :: (ds ++ c :: rest)).take 4 == ascii "null") = false := by
    cases hds : ds ++ c :: rest with
    | nil => simp [ascii]
    | cons a as =>
      cases as with
      | nil => simp [ascii]
      | cons b bs =>
        cases bs with
        | nil => simp [ascii]
        | cons e es => simp [ascii, h6]
  have t1' := beq_eq_false_iff_ne.mp t1
  have t2' := beq_eq_false_iff_ne.mp t2
  have t3' := beq_eq_false_iff_ne.mp t3
  simp only [t1', t2', t3', if_false]
  rw [if_pos hnum, hp]
  rfl

theorem intercalate_cons_cons (sep a b : Bytes) (l : List Bytes) :
    sep.intercalate (a :: b :: l) = a ++ sep ++ sep.intercalate (b :: l) := by
  simp [List.intercalate, List.intersperse]

theorem intercalate_single (sep a : Bytes) : sep.intercalate [a] = a := by
  simp [List.intercalate, List.intersperse]

/-- One member and what follows it. -/
theorem parseMembers_step (f : Field) (hok : f.ok) (fuel depth : Nat) (acc : JSONMap)
    (c : UInt8) (rest : Bytes) (hc : c = 0x2c ∨ c = 0x7d) :
    parseMembers (fuel + 2) depth (f.text ++ c :: rest) acc
      = if c == 0x2c then parseMembers (fuel + 1) depth (skipSpace rest) (acc ++ [f.decoded])
        else some (JSON.obj (acc ++ [f.decoded]), rest) := by
  obtain ⟨hval, e0, es, henc, hsp⟩ := hok
  have hstr := parseString_jsonEscape f.key.length f.key (0x3a :: (f.enc ++ c :: rest))
    ((jsonEscape f.key.length f.key ++ 0x22 :: 0x3a :: (f.enc ++ c :: rest)).length + 1)
    (le_refl _) (by simp; omega)
  have hcs : isSpace c = false := by rcases hc with rfl | rfl <;> decide
  have hform : f.text ++ c :: rest
      = 0x22 :: (jsonEscape f.key.length f.key ++ 0x22 :: 0x3a :: (f.enc ++ c :: rest)) := by
    simp [Field.text, jsonString]
  rw [hform]
  simp only [parseMembers]
  simp only [bne_self_eq_false, Bool.false_eq_true, if_false]
  rw [hstr]
  simp only
  rw [skipSpace_cons 0x3a _ (by decide)]
  simp only [bne_self_eq_false, Bool.false_eq_true, if_false]
  have hsk : skipSpace (f.enc ++ c :: rest) = f.enc ++ c :: rest := by
    rw [henc, List.cons_append]
    exact skipSpace_cons e0 _ hsp
  rw [hsk, hval c rest (fuel) depth hc]
  simp only
  rw [skipSpace_cons c rest hcs]
  simp only
  rcases hc with rfl | rfl
  · simp [Field.decoded]
  · simp [Field.decoded]

/-- The members of a marshalled object, up to the closing brace. -/
theorem parseMembers_fields : ∀ (fs : List Field) (acc : JSONMap) (fuel depth : Nat)
    (tail : Bytes), fs ≠ [] → (∀ f ∈ fs, f.ok) → 2 * fs.length ≤ fuel →
    parseMembers fuel depth ((ascii ",").intercalate (fs.map Field.text) ++ 0x7d :: tail) acc
      = some (JSON.obj (acc ++ fs.map Field.decoded), tail) := by
  intro fs
  induction fs with
  | nil => intro _ _ _ _ h; exact absurd rfl h
  | cons f fs ih =>
    intro acc fuel depth tail _ hok hfuel
    obtain ⟨k, rfl⟩ : ∃ k, fuel = k + 2 := ⟨fuel - 2, by simp at hfuel; omega⟩
    cases fs with
    | nil =>
      simp only [List.map_cons, List.map_nil, intercalate_single]
      rw [parseMembers_step f (hok f (by simp)) k depth acc 0x7d tail (Or.inr rfl)]
      simp
    | cons g gs =>
      simp only [List.map_cons, intercalate_cons_cons]
      have hsplit : f.text ++ ascii "," ++ (ascii ",").intercalate (g.text :: gs.map Field.text)
          ++ 0x7d :: tail
          = f.text ++ 0x2c :: ((ascii ",").intercalate ((g :: gs).map Field.text)
            ++ 0x7d :: tail) := by
        simp [ascii]
      rw [hsplit, parseMembers_step f (hok f (by simp)) k depth acc 0x2c _ (Or.inl rfl)]
      simp only [beq_self_eq_true, if_true]
      have hskip : skipSpace ((ascii ",").intercalate ((g :: gs).map Field.text) ++ 0x7d :: tail)
          = (ascii ",").intercalate ((g :: gs).map Field.text) ++ 0x7d :: tail := by
        have hq : ∃ r, (ascii ",").intercalate ((g :: gs).map Field.text) ++ 0x7d :: tail
            = 0x22 :: r := by
          cases gs with
          | nil =>
            simp only [List.map_cons, List.map_nil, intercalate_single]
            exact ⟨_, by simp [Field.text, jsonString]; rfl⟩
          | cons h hs =>
            simp only [List.map_cons, intercalate_cons_cons]
            exact ⟨_, by simp [Field.text, jsonString]; rfl⟩
        obtain ⟨r, hr⟩ := hq
        rw [hr]
        exact skipSpace_cons _ _ (by decide)
      rw [hskip]
      rw [ih (acc ++ [f.decoded]) (k + 1) depth tail (by simp)
        (fun x hx => hok x (by simp [hx])) (by simp at hfuel ⊢; omega)]
      simp

theorem jsonString_length (v : Bytes) : 2 ≤ (jsonString v).length := by
  simp [jsonString]

theorem text_length (f : Field) : 2 ≤ f.text.length := by
  have := jsonString_length f.key
  simp only [Field.text, List.length_append]
  omega

theorem intercalate_length (fs : List Field) :
    2 * fs.length ≤ ((ascii ",").intercalate (fs.map Field.text)).length := by
  induction fs with
  | nil => simp
  | cons f fs ih =>
    cases fs with
    | nil =>
      have := text_length f
      simp only [List.map_cons, List.map_nil, intercalate_single, List.length_cons,
        List.length_nil]
      omega
    | cons g gs =>
      have := text_length f
      simp only [List.map_cons, intercalate_cons_cons, List.length_append, List.length_cons]
        at ih ⊢
      omega

theorem parseValue_object (fs : List Field) (hok : ∀ f ∈ fs, f.ok) (tail : Bytes) (fuel : Nat)
    (hfuel : 2 * fs.length + 1 ≤ fuel) :
    parseValue fuel 0 (objectText fs ++ tail) = some (JSON.obj (fs.map Field.decoded), tail) := by
  obtain ⟨k, rfl⟩ : ∃ k, fuel = k + 1 := ⟨fuel - 1, by omega⟩
  have hform : objectText fs ++ tail
      = 0x7b :: ((ascii ",").intercalate (fs.map Field.text) ++ 0x7d :: tail) := by
    simp [objectText]
  rw [hform]
  have hdepth : ¬ (maxNestingDepth ≤ 0) := by decide
  cases fs with
  | nil =>
    simp only [List.map_nil, List.intercalate, List.intersperse, List.flatten, List.nil_append,
      parseValue]
    simp [hdepth, skipSpace_cons 0x7d tail (by decide)]
  | cons f fs' =>
    have hq : ∃ r, (ascii ",").intercalate ((f :: fs').map Field.text) ++ 0x7d :: tail
        = 0x22 :: r := by
      cases fs' with
      | nil =>
        simp only [List.map_cons, List.map_nil, intercalate_single]
        exact ⟨_, by simp [Field.text, jsonString]; rfl⟩
      | cons h hs =>
        simp only [List.map_cons, intercalate_cons_cons]
        exact ⟨_, by simp [Field.text, jsonString]; rfl⟩
    obtain ⟨r, hr⟩ := hq
    have hm := parseMembers_fields (f :: fs') [] k 1 tail (by simp) hok (by omega)
    rw [hr] at hm ⊢
    simp only [parseValue]
    simp only [beq_self_eq_true, if_true, hdepth, if_false]
    rw [skipSpace_cons 0x22 r (by decide)]
    simp only
    have : ((0x22 : UInt8) == 0x7d) = false := by decide
    simp only [this, Bool.false_eq_true, if_false]
    rw [hm]
    simp

theorem skipSpace_objectText (fs : List Field) (tail : Bytes) :
    skipSpace (objectText fs ++ tail) = objectText fs ++ tail := by
  have : objectText fs ++ tail
      = 0x7b :: ((ascii ",").intercalate (fs.map Field.text) ++ 0x7d :: tail) := by
    simp [objectText]
  rw [this]
  exact skipSpace_cons _ _ (by decide)

theorem objectText_fuel (fs : List Field) :
    2 * fs.length + 1 ≤ (objectText fs).length + 1 := by
  have := intercalate_length fs
  simp only [objectText, List.length_append, List.length_cons, List.length_nil]
  omega

/-- `Decoder.Decode` reads back the members of a marshalled record. -/
theorem jsonDecodeMap_object (fs : List Field) (hok : ∀ f ∈ fs, f.ok) :
    jsonDecodeMap (objectText fs) = some (fs.map Field.decoded) := by
  unfold jsonDecodeMap
  have h := parseValue_object fs hok [] _ (objectText_fuel fs)
  have hs := skipSpace_objectText fs []
  simp only [List.append_nil] at h hs
  rw [hs, h]

/-- `Unmarshal` reads back the members of a marshalled record. -/
theorem jsonUnmarshalMap_object (fs : List Field) (hok : ∀ f ∈ fs, f.ok) :
    jsonUnmarshalMap (objectText fs) = some (fs.map Field.decoded) := by
  unfold jsonUnmarshalMap
  have h := parseValue_object fs hok [] _ (objectText_fuel fs)
  have hs := skipSpace_objectText fs []
  simp only [List.append_nil] at h hs
  rw [hs, h]
  simp [skipSpace]

theorem stringMember_eq (key v : Bytes) :
    stringMember key v = (sFields key v).map Field.text := by
  unfold stringMember sFields
  split <;> simp [Field.text]

theorem intMember_eq (key : Bytes) (n : Int) :
    intMember key n = (iFields key n).map Field.text := by
  unfold intMember iFields
  split <;> simp [Field.text]

theorem marshal_eq (c : StandardClaims) : c.marshal = objectText (claimFields c) := by
  unfold StandardClaims.marshal objectText claimFields
  simp only [stringMember_eq, intMember_eq, List.map_append]

theorem sFields_ok (key v : Bytes) : ∀ f ∈ sFields key v, f.ok := by
  intro f hf
  unfold sFields at hf
  split at hf
  · simp at hf
  · simp only [List.mem_singleton] at hf
    subst hf
    exact stringField_ok key v

theorem iFields_ok (key : Bytes) (n : Int) (hn : n.natAbs < 2 ^ 53) :
    ∀ f ∈ iFields key n, f.ok := by
  intro f hf
  unfold iFields at hf
  split at hf
  · simp at hf
  · simp only [List.mem_singleton] at hf
    subst hf
    exact intField_ok key n hn

theorem claimFields_ok (c : StandardClaims) (h1 : c.ExpiresAt.natAbs < 2 ^ 53)
    (h2 : c.IssuedAt.natAbs < 2 ^ 53) (h3 : c.NotBefore.natAbs < 2 ^ 53) :
    ∀ f ∈ claimFields c, f.ok := by
  intro f hf
  simp only [claimFields, List.mem_append] at hf
  rcases hf with (((((hf | hf) | hf) | hf) | hf) | hf) | hf
  · exact sFields_ok _ _ f hf
  · exact iFields_ok _ _ h1 f hf
  · exact sFields_ok _ _ f hf
  · exact iFields_ok _ _ h2 f hf
  · exact sFields_ok _ _ f hf
  · exact iFields_ok _ _ h3 f hf
  · exact sFields_ok _ _ f hf

/-- Decoding marshalled claims. -/
theorem jsonDecodeMap_marshal (c : StandardClaims) (h1 : c.ExpiresAt.natAbs < 2 ^ 53)
    (h2 : c.IssuedAt.natAbs < 2 ^ 53) (h3 : c.NotBefore.natAbs < 2 ^ 53) :
    jsonDecodeMap c.marshal = some ((claimFields c).map Field.decoded) := by
  rw [marshal_eq]
  exact jsonDecodeMap_object _ (claimFields_ok c h1 h2 h3)

theorem marshalHeader_eq (m : SigningMethod) : marshalHeader m = objectText (headerFields m) := by
  simp [marshalHeader, objectText, headerFields, intercalate_cons_cons, intercalate_single,
    Field.text, ascii]

theorem jsonUnmarshalMap_header (m : SigningMethod) :
    jsonUnmarshalMap (marshalHeader m) = some ((headerFields m).map Field.decoded) := by
  rw [marshalHeader_eq]
  apply jsonUnmarshalMap_object
  intro f hf
  simp only [headerFields, List.mem_cons, List.mem_singleton, List.not_mem_nil, or_false] at hf
  rcases hf with rfl | rfl
  · exact stringField_ok _ _
  · exact stringField_ok _ _

/-! ### Splitting a signed string -/

theorem splitOn_no_sep (sep : UInt8) (a : Bytes) (h : ∀ c ∈ a, c ≠ sep) :
    splitOn sep a = [a] := by
  induction a with
  | nil => rfl
  | cons c a ih =>
    have hc : c ≠ sep := h c (by simp)
    have := ih (fun x hx => h x (by simp [hx]))
    simp [splitOn, hc, this]

theorem splitOn_append (sep : UInt8) (a rest : Bytes) (h : ∀ c ∈ a, c ≠ sep) :
    splitOn sep (a ++ sep :: rest) = a :: splitOn sep rest := by
  induction a with
  | nil => simp [splitOn]
  | cons c a ih =>
    have hc : c ≠ sep := h c (by simp)
    have := ih (fun x hx => h x (by simp [hx]))
    simp [splitOn, hc, this]

theorem splitOn_three (a b c : Bytes) (ha : ∀ x ∈ a, isB64 urlAlphabet x)
    (hb : ∀ x ∈ b, isB64 urlAlphabet x) (hc : ∀ x ∈ c, isB64 urlAlphabet x) :
    splitOn 0x2e (a ++ 0x2e :: (b ++ 0x2e :: c)) = [a, b, c] := by
  rw [splitOn_append _ _ _ (fun x hx => isB64_ne_dot x (ha x hx)),
    splitOn_append _ _ _ (fun x hx => isB64_ne_dot x (hb x hx)),
    splitOn_no_sep _ _ (fun x hx => isB64_ne_dot x (hc x hx))]

/-! ### Looking up decoded members -/

theorem get_nil (key : Bytes) : JSONMap.get [] key = none := rfl

theorem get_append (m1 m2 : JSONMap) (key : Bytes) :
    JSONMap.get (m1 ++ m2) key
      = match JSONMap.get m2 key with
        | some v => some v
        | none => JSONMap.get m1 key := by
  unfold JSONMap.get
  rw [List.reverse_append, List.find?_append]
  cases h : List.find? (fun kv => kv.1 == key) m2.reverse with
  | none => simp
  | some kv => simp

theorem get_single (k key : Bytes) (v : JSON) :
    JSONMap.get [(k, v)] key = if k == key then some v else none := by
  unfold JSONMap.get
  by_cases h : (k == key) = true
  · simp [List.find?, h]
  · simp [List.find?, h]

theorem key_exp : toValidUTF8 (ascii "exp").length (ascii "exp") = ascii "exp" := by decide

theorem key_iat : toValidUTF8 (ascii "iat").length (ascii "iat") = ascii "iat" := by decide

theorem key_iss : toValidUTF8 (ascii "iss").length (ascii "iss") = ascii "iss" := by decide

theorem key_alg : toValidUTF8 (ascii "alg").length (ascii "alg") = ascii "alg" := by decide

theorem key_typ : toValidUTF8 (ascii "typ").length (ascii "typ") = ascii "typ" := by decide

theorem decodedClaims_eq (now1 now2 : Time) (publisherID : Bytes) :
    decodedClaims now1 now2 publisherID
      = (iFields (ascii "exp") (now1.Add (1 * Time.Hour)).Unix).map Field.decoded
        ++ (iFields (ascii "iat") now2.Unix).map Field.decoded
        ++ (sFields (ascii "iss") publisherID).map Field.decoded := by
  simp [decodedClaims, claimFields, jwtClaims, sFields, iFields]

theorem get_iFields (k key : Bytes) (n : Int) (hk : toValidUTF8 k.length k = k) :
    JSONMap.get ((iFields k n).map Field.decoded) key
      = if n = 0 then none else if k == key then some (intValue n) else none := by
  unfold iFields
  by_cases h : n = 0
  · simp [h, get_nil]
  · simp only [h, if_false, List.map_cons, List.map_nil, Field.decoded, hk, get_single]
    rfl

theorem get_sFields (k key v : Bytes) (hk : toValidUTF8 k.length k = k) :
    JSONMap.get ((sFields k v).map Field.decoded) key
      = if v.isEmpty then none
        else if k == key then some (JSON.str (toValidUTF8 v.length v)) else none := by
  unfold sFields
  by_cases h : v.isEmpty = true
  · simp [h, get_nil]
  · simp only [h, Bool.false_eq_true, if_false, List.map_cons, List.map_nil, Field.decoded, hk,
      get_single]

theorem claims_get_exp (now1 now2 : Time) (p : Bytes) :
    (decodedClaims now1 now2 p).get (ascii "exp")
      = if (now1.Add (1 * Time.Hour)).Unix = 0 then none
        else some (intValue (now1.Add (1 * Time.Hour)).Unix) := by
  have e1 : (ascii "iss" == ascii "exp") = false := by decide
  have e2 : (ascii "iat" == ascii "exp") = false := by decide
  rw [decodedClaims_eq, get_append, get_sFields _ _ _ key_iss, get_append,
    get_iFields _ _ _ key_iat, get_iFields _ _ _ key_exp]
  simp only [e1, e2, Bool.false_eq_true, if_false, ite_self, beq_self_eq_true, if_true]

theorem claims_get_iat (now1 now2 : Time) (p : Bytes) :
    (decodedClaims now1 now2 p).get (ascii "iat")
      = if now2.Unix = 0 then none else some (intValue now2.Unix) := by
  have e1 : (ascii "iss" == ascii "iat") = false := by decide
  rw [decodedClaims_eq, get_append, get_sFields _ _ _ key_iss, get_append,
    get_iFields _ _ _ key_iat]
  simp only [e1, Bool.false_eq_true, if_false, ite_self, beq_self_eq_true, if_true]
  by_cases h : now2.Unix = 0
  · have e2 : (ascii "exp" == ascii "iat") = false := by decide
    simp only [h, if_true, get_iFields _ _ _ key_exp, e2, Bool.false_eq_true, if_false, ite_self]
  · simp only [h, if_false]

theorem claims_get_nbf (now1 now2 : Time) (p : Bytes) :
    (decodedClaims now1 now2 p).get (ascii "nbf") = none := by
  have e1 : (ascii "iss" == ascii "nbf") = false := by decide
  have e2 : (ascii "iat" == ascii "nbf") = false := by decide
  have e3 : (ascii "exp" == ascii "nbf") = false := by decide
  rw [decodedClaims_eq, get_append, get_sFields _ _ _ key_iss, get_append,
    get_iFields _ _ _ key_iat, get_iFields _ _ _ key_exp]
  simp only [e1, e2, e3, Bool.false_eq_true, if_false, ite_self]

theorem claims_get_iss (now1 now2 : Time) (p : Bytes) :
    (decodedClaims now1 now2 p).get (ascii "iss")
      = if p.isEmpty then none else some (JSON.str (toValidUTF8 p.length p)) := by
  have e1 : (ascii "iat" == ascii "iss") = false := by decide
  have e2 : (ascii "exp" == ascii "iss") = false := by decide
  rw [decodedClaims_eq, get_append, get_sFields _ _ _ key_iss, get_append,
    get_iFields _ _ _ key_iat, get_iFields _ _ _ key_exp]
  simp only [e1, e2, Bool.false_eq_true, if_false, ite_self, beq_self_eq_true, if_true]
  by_cases h : p.isEmpty = true
  · simp only [h, if_true]
  · simp only [h, Bool.false_eq_true, if_false]

/-! ### Parsing and verifying a string `SignedString` produced -/

theorem signingString_eq (m : SigningMethod) (c : StandardClaims) (S : Bytes) :
    SigningString m c ++ 0x2e :: S
      = EncodeSegment (marshalHeader m) ++ 0x2e :: (EncodeSegment c.marshal ++ 0x2e :: S) := by
  simp [SigningString]

theorem headerAlg_HS256 :
    headerAlg ((headerFields SigningMethodHS256).map Field.decoded) = some (ascii "HS256") := by
  decide

/-- Parsing a signed HS256 token whose integer claims are below `2^53`. -/
theorem parseUnverified_signed (c : StandardClaims) (h1 : c.ExpiresAt.natAbs < 2 ^ 53)
    (h2 : c.IssuedAt.natAbs < 2 ^ 53) (h3 : c.NotBefore.natAbs < 2 ^ 53) (S : Bytes)
    (hS : ∀ x ∈ S, isB64 urlAlphabet x) :
    ParseUnverified (SigningString SigningMethodHS256 c ++ 0x2e :: S)
      = .ok ({ Raw := SigningString SigningMethodHS256 c ++ 0x2e :: S,
               Method := some SigningMethodHS256,
               Header := decodedHeader,
               Claims := (claimFields c).map Field.decoded },
             [EncodeSegment (marshalHeader SigningMethodHS256), EncodeSegment c.marshal, S]) := by
  have hsplit : splitOn 0x2e (SigningString SigningMethodHS256 c ++ 0x2e :: S)
      = [EncodeSegment (marshalHeader SigningMethodHS256), EncodeSegment c.marshal, S] := by
    rw [signingString_eq]
    exact splitOn_three _ _ _ (encodeSegment_chars _) (encodeSegment_chars _) hS
  have hg : GetSigningMethod (ascii "HS256") = some SigningMethodHS256 := by decide
  unfold ParseUnverified
  simp only [hsplit, List.length_cons, List.length_nil, List.getD_cons_zero, List.getD_cons_succ,
    decode_encodeSegment, Option.some_bind, jsonUnmarshalMap_header,
    jsonDecodeMap_marshal c h1 h2 h3]
  simp only [bne_self_eq_false, Bool.false_eq_true, if_false, headerAlg_HS256, hg, decodedHeader]

theorem createJWT_eq (tm : TokenManager) (now1 now2 : Time) (p : Bytes) :
    CreateJWT tm now1 now2 p
      = some (SigningString SigningMethodHS256 (jwtClaims now1 now2 p) ++ 0x2e ::
          EncodeSegment (hmac sha256Params tm.jwtSecret
            (SigningString SigningMethodHS256 (jwtClaims now1 now2 p)))) := by
  simp [CreateJWT, SignedString, SigningMethod.Sign, SigningMethodHS256, Hash.params]

theorem keyFunc_HS256 (tm : TokenManager) (t : Token) (h : t.Method = some SigningMethodHS256) :
    keyFunc tm t = some tm.jwtSecret := by
  unfold keyFunc
  rw [h]
  rfl

theorem verify_HS256 (ss sig key : Bytes) :
    SigningMethodHS256.Verify ss (EncodeSegment sig) key = (sig == hmac sha256Params key ss) := by
  unfold SigningMethod.Verify SigningMethodHS256
  simp only [decode_encodeSegment]
  rfl

/-- `VerifyJWT` on a signed HS256 token, whoever signed it. -/
theorem verifyJWT_signed (tm : TokenManager) (now : Time) (c : StandardClaims)
    (h1 : c.ExpiresAt.natAbs < 2 ^ 53) (h2 : c.IssuedAt.natAbs < 2 ^ 53)
    (h3 : c.NotBefore.natAbs < 2 ^ 53) (sig : Bytes) :
    VerifyJWT tm now (SigningString SigningMethodHS256 c ++ 0x2e :: EncodeSegment sig)
      = if (if sig == hmac sha256Params tm.jwtSecret (SigningString SigningMethodHS256 c)
              then MapClaims.Valid ((claimFields c).map Field.decoded) now
              else MapClaims.Valid ((claimFields c).map Field.decoded) now
                ||| ValidationErrorSignatureInvalid) = 0
        then (some { parsedToken c sig with Valid := true }, none)
        else (some (parsedToken c sig),
              some ⟨if sig == hmac sha256Params tm.jwtSecret (SigningString SigningMethodHS256 c)
                then MapClaims.Valid ((claimFields c).map Field.decoded) now
                else MapClaims.Valid ((claimFields c).map Field.decoded) now
                  ||| ValidationErrorSignatureInvalid⟩) := by
  unfold VerifyJWT Parse
  rw [parseUnverified_signed c h1 h2 h3 _ (encodeSegment_chars sig)]
  have hss : EncodeSegment (marshalHeader SigningMethodHS256) ++ [0x2e] ++ EncodeSegment c.marshal
      = SigningString SigningMethodHS256 c := by
    simp [SigningString]
  simp only
  rw [keyFunc_HS256 tm _ rfl]
  simp only [List.getD_cons_zero, List.getD_cons_succ, hss, verify_HS256]
  rfl

theorem toValidUTF8_of_valid (n : Nat) : ∀ s : Bytes, s.length ≤ n → utf8Valid n s = true →
    toValidUTF8 n s = s := by
  induction n with
  | zero =>
    intro s hs _
    have : s = [] := List.length_eq_zero.mp (by omega)
    subst this
    rfl
  | succ n ih =>
    intro s hs hv
    cases s with
    | nil => rfl
    | cons b rest =>
      simp only [utf8Valid] at hv
      simp only [toValidUTF8]
      cases hd : decodeRune (b :: rest) with
      | none => rw [hd] at hv; simp at hv
      | some p =>
        obtain ⟨r, size⟩ := p
        rw [hd] at hv
        simp only at hv ⊢
        obtain ⟨h1, h2, _, _, _⟩ := decodeRune_spec _ r size hd
        have hlen : (rest.drop (size - 1)).length ≤ n := by
          simp only [List.length_drop, List.length_cons] at hs ⊢
          omega
        rw [ih _ hlen hv]
        have htake : (b :: rest).take size = b :: rest.take (size - 1) := by
          have hsz : size = (size - 1) + 1 := by omega
          rw [hsz]; simp
        rw [htake, List.cons_append, List.take_append_drop]

/-! ### The claim checks on the decoded claims -/

theorem verifyExpiresAt_decoded (now1 now2 : Time) (p : Bytes) (cmp : Int)
    (h : (jwtClaims now1 now2 p).ExpiresAt.natAbs < 2 ^ 53) :
    MapClaims.VerifyExpiresAt (decodedClaims now1 now2 p) cmp false
      = decide ((jwtClaims now1 now2 p).ExpiresAt = 0 ∨ cmp ≤ (jwtClaims now1 now2 p).ExpiresAt) := by
  unfold MapClaims.VerifyExpiresAt verifyNumeric
  rw [claims_get_exp]
  have he : (jwtClaims now1 now2 p).ExpiresAt = (now1.Add (1 * Time.Hour)).Unix := rfl
  rw [he] at h ⊢
  by_cases h0 : (now1.Add (1 * Time.Hour)).Unix = 0
  · simp only [h0, if_true, true_or, decide_True]
    rfl
  · simp only [h0, if_false, intValue, toInt64_int _ h, verifyExp, false_or]

theorem verifyIssuedAt_decoded (now1 now2 : Time) (p : Bytes) (cmp : Int)
    (h : (jwtClaims now1 now2 p).IssuedAt.natAbs < 2 ^ 53) :
    MapClaims.VerifyIssuedAt (decodedClaims now1 now2 p) cmp false
      = decide ((jwtClaims now1 now2 p).IssuedAt = 0 ∨ (jwtClaims now1 now2 p).IssuedAt ≤ cmp) := by
  unfold MapClaims.VerifyIssuedAt verifyNumeric
  rw [claims_get_iat]
  have he : (jwtClaims now1 now2 p).IssuedAt = now2.Unix := rfl
  rw [he] at h ⊢
  by_cases h0 : now2.Unix = 0
  · simp only [h0, if_true, true_or, decide_True]
    rfl
  · simp only [h0, if_false, intValue, toInt64_int _ h, verifyIat, false_or]

theorem verifyNotBefore_decoded (now1 now2 : Time) (p : Bytes) (cmp : Int) :
    MapClaims.VerifyNotBefore (decodedClaims now1 now2 p) cmp false = true := by
  unfold MapClaims.VerifyNotBefore verifyNumeric
  rw [claims_get_nbf]
  rfl

theorem unix_mono (a b : Int) (h : a ≤ b) : a / 1000000000 ≤ b / 1000000000 := by
  omega

theorem unix_le_expiry (a b : Int) (h : a ≤ b + 3600 * 1000000000) :
    a / 1000000000 ≤ (b + 1 * (3600 * 1000000000)) / 1000000000 := by
  omega

/-- The claim checks pass from the second clock reading of `CreateJWT` up to
one hour after the first. -/
theorem valid_decoded (now1 now2 now : Time) (p : Bytes)
    (hexp : (jwtClaims now1 now2 p).ExpiresAt.natAbs < 2 ^ 53)
    (hiat : (jwtClaims now1 now2 p).IssuedAt.natAbs < 2 ^ 53)
    (h2 : now2 ≤ now) (hw : now ≤ now1 + Time.Hour) :
    MapClaims.Valid (decodedClaims now1 now2 p) now = 0 := by
  unfold MapClaims.Valid
  rw [verifyExpiresAt_decoded _ _ _ _ hexp, verifyIssuedAt_decoded _ _ _ _ hiat,
    verifyNotBefore_decoded]
  have e1 : now.Unix ≤ (jwtClaims now1 now2 p).ExpiresAt :=
    unix_le_expiry now now1 hw
  have e2 : (jwtClaims now1 now2 p).IssuedAt ≤ now.Unix := unix_mono now2 now h2
  simp [e1, e2]

/-- `VerifyJWT` under `tmB` on a token `CreateJWT` signed under `tmA`, inside
the token's life: accepted when the two MACs of the signing string agree,
refused for its signature when they differ. -/
theorem verifyJWT_createJWT (tmA tmB : TokenManager) (now1 now2 now : Time) (p : Bytes)
    (hexp : (jwtClaims now1 now2 p).ExpiresAt.natAbs < 2 ^ 53)
    (hiat : (jwtClaims now1 now2 p).IssuedAt.natAbs < 2 ^ 53)
    (h2 : now2 ≤ now) (hw : now ≤ now1 + Time.Hour) :
    VerifyJWT tmB now ((CreateJWT tmA now1 now2 p).getD [])
      = if hmac sha256Params tmA.jwtSecret (SigningString SigningMethodHS256 (jwtClaims now1 now2 p))
            = hmac sha256Params tmB.jwtSecret
                (SigningString SigningMethodHS256 (jwtClaims now1 now2 p))
        then (some { parsedToken (jwtClaims now1 now2 p)
                      (hmac sha256Params tmA.jwtSecret
                        (SigningString SigningMethodHS256 (jwtClaims now1 now2 p)))
                     with Valid := true }, none)
        else (some (parsedToken (jwtClaims now1 now2 p)
                (hmac sha256Params tmA.jwtSecret
                  (SigningString SigningMethodHS256 (jwtClaims now1 now2 p)))),
              some ⟨ValidationErrorSignatureInvalid⟩) := by
  have hnbf : (jwtClaims now1 now2 p).NotBefore.natAbs < 2 ^ 53 := by
    simp [jwtClaims]
  rw [createJWT_eq, Option.getD_some, verifyJWT_signed tmB now _ hexp hiat hnbf]
  have hv := valid_decoded now1 now2 now p hexp hiat h2 hw
  unfold decodedClaims at hv
  rw [hv]
  by_cases hm : hmac sha256Params tmA.jwtSecret
      (SigningString SigningMethodHS256 (jwtClaims now1 now2 p))
      = hmac sha256Params tmB.jwtSecret (SigningString SigningMethodHS256 (jwtClaims now1 now2 p))
  · simp [hm]
  · simp [hm, ValidationErrorSignatureInvalid]

theorem parsedToken_issuer (now1 now2 : Time) (p sig : Bytes) (hne : p ≠ []) (v : Bool) :
    Token.issuer { parsedToken (jwtClaims now1 now2 p) sig with Valid := v }
      = some (toValidUTF8 p.length p) := by
  unfold Token.issuer parsedToken
  have := claims_get_iss now1 now2 p
  unfold decodedClaims at this
  simp only [this]
  have : p.isEmpty = false := by
    cases p with
    | nil => exact absurd rfl hne
    | cons a as => rfl
  simp [this]

theorem correctlySigned_hmac (tm : TokenManager) (tok : Token) (parts : List Bytes)
    (h : correctlySigned tm tok parts = true) : keyFunc tm tok = some tm.jwtSecret := by
  unfold correctlySigned at h
  unfold keyFunc
  cases hm : tok.Method with
  | none => rw [hm] at h; simp at h
  | some m =>
    cases m with
    | HMAC name hash => rfl
    | other name => rw [hm] at h; simp [SigningMethod.Verify] at h

theorem valid_has_expired (a b c : Bool) :
    (ValidationError.has
      ⟨(if a then 0 else ValidationErrorExpired) ||| (if b then 0 else ValidationErrorIssuedAt)
        ||| (if c then 0 else ValidationErrorNotValidYet)⟩ ValidationErrorExpired = true ↔ a = false)
    ∧ (((if a then 0 else ValidationErrorExpired) ||| (if b then 0 else ValidationErrorIssuedAt)
        ||| (if c then 0 else ValidationErrorNotValidYet)) = 0 ↔ (a = true ∧ b = true ∧ c = true)) := by
  cases a <;> cases b <;> cases c <;> decide

/-- C9 amended -/
theorem verifyJWT_expired_iff (tm : TokenManager) (now : Time) (s : Bytes) (tok : Token)
    (parts : List Bytes) (f : F64)
    (hp : ParseUnverified s = .ok (tok, parts))
    (hsig : correctlySigned tm tok parts = true)
    (hexp : tok.Claims.get (ascii "exp") = some (JSON.num f)) (hnz : f.toInt64 ≠ 0) :
    ((∃ e, (VerifyJWT tm now s).2 = some e ∧ e.has ValidationErrorExpired = true)
        ↔ f.toInt64 < now.Unix)
    ∧ (now.Unix ≤ f.toInt64 → tok.Claims.VerifyIssuedAt now.Unix false = true →
        tok.Claims.VerifyNotBefore now.Unix false = true →
        VerifyJWT tm now s
          = (some { tok with Signature := parts.getD 2 [], Valid := true }, none)) := by
  have hk := correctlySigned_hmac tm tok parts hsig
  have hve : tok.Claims.VerifyExpiresAt now.Unix false = decide (now.Unix ≤ f.toInt64) := by
    unfold MapClaims.VerifyExpiresAt verifyNumeric
    rw [hexp]
    simp [verifyExp, hnz]
  obtain ⟨method, hm, hver⟩ : ∃ method, tok.Method = some method
      ∧ method.Verify (parts.getD 0 [] ++ [0x2e] ++ parts.getD 1 []) (parts.getD 2 [])
          tm.jwtSecret = true := by
    unfold correctlySigned at hsig
    cases hm : tok.Method with
    | none => rw [hm] at hsig; simp at hsig
    | some m => rw [hm] at hsig; exact ⟨m, rfl, hsig⟩
  have hres : VerifyJWT tm now s
      = if tok.Claims.Valid now = 0
        then (some { tok with Signature := parts.getD 2 [], Valid := true }, none)
        else (some { tok with Signature := parts.getD 2 [] }, some ⟨tok.Claims.Valid now⟩) := by
    unfold VerifyJWT Parse
    rw [hp]
    simp only [hk, hm, hver, if_true]
  obtain ⟨hbit, hzero⟩ := valid_has_expired (tok.Claims.VerifyExpiresAt now.Unix false)
    (tok.Claims.VerifyIssuedAt now.Unix false) (tok.Claims.VerifyNotBefore now.Unix false)
  have hV : tok.Claims.Valid now
      = ((if tok.Claims.VerifyExpiresAt now.Unix false = true then 0 else ValidationErrorExpired)
          ||| (if tok.Claims.VerifyIssuedAt now.Unix false = true then 0
                else ValidationErrorIssuedAt)
          ||| (if tok.Claims.VerifyNotBefore now.Unix false = true then 0
                else ValidationErrorNotValidYet)) := rfl
  rw [← hV] at hbit hzero
  constructor
  · constructor
    · rintro ⟨e, he, hhas⟩
      rw [hres] at he
      split at he
      · simp at he
      · simp only [Option.some.injEq] at he
        subst he
        have := hbit.mp hhas
        rw [hve] at this
        simpa using this
    · intro hlt
      have hfalse : tok.Claims.VerifyExpiresAt now.Unix false = false := by
        rw [hve]; simpa using hlt
      have hne : tok.Claims.Valid now ≠ 0 := by
        intro h0
        have := (hzero.mp h0).1
        rw [hfalse] at this
        exact absurd this (by decide)
      refine ⟨⟨tok.Claims.Valid now⟩, ?_, hbit.mpr hfalse⟩
      rw [hres, if_neg hne]
  · intro hle hiat hnbf
    have htrue : tok.Claims.VerifyExpiresAt now.Unix false = true := by
      rw [hve]; simpa using hle
    rw [hres, if_pos (hzero.mpr ⟨htrue, hiat, hnbf⟩)]

/-! ## Event tokens -/

/-- The record `CreateEventToken` returns. -/
theorem createEventToken_fst (tm : TokenManager) (t : Time) (p e payload : Bytes) :
    (CreateEventToken tm t p e payload).1
      = { PublisherID := p, EventType := e, ExpiresAt := t + 24 * Time.Hour,
          Hash := StdEncoding.EncodeToString (hmacSHA256 tm.eventSecret payload) } := rfl

theorem eventToken_hash_mk (p e : Bytes) (t : Time) (x : Bytes) :
    ({ PublisherID := p, EventType := e, ExpiresAt := t, Hash := x } : EventToken).Hash = x := rfl

/-- The hash `CreateEventToken` writes. -/
theorem createEventToken_hash (tm : TokenManager) (t : Time) (p e payload : Bytes) :
    (CreateEventToken tm t p e payload).1.Hash
      = StdEncoding.EncodeToString (hmacSHA256 tm.eventSecret payload) :=
  (congrArg EventToken.Hash (createEventToken_fst tm t p e payload)).trans
    (eventToken_hash_mk p e (t + 24 * Time.Hour)
      (StdEncoding.EncodeToString (hmacSHA256 tm.eventSecret payload)))

/-- The two tests of `VerifyEventToken`, on a record given by its fields. -/
theorem verifyEventToken_fields (tm : TokenManager) (now : Time) (a b : Bytes) (ex : Time)
    (hs payload : Bytes) :
    VerifyEventToken tm now { PublisherID := a, EventType := b, ExpiresAt := ex, Hash := hs } payload
      = if Time.After now ex = true then some EventError.expired
        else if (StdEncoding.EncodeToString (hmacSHA256 tm.eventSecret payload) != hs) = true
          then some EventError.invalidPayloadHash else none := rfl

theorem check_not_after (after : Bool) (x y : Bytes) (ha : after = false) :
    (if after = true then some EventError.expired
      else if (x != y) = true then some EventError.invalidPayloadHash else none)
      = if x = y then none else some EventError.invalidPayloadHash := by
  subst ha
  by_cases hxy : x = y
  · subst hxy; simp
  · simp [hxy]

theorem ite_encodeToString (a b : Bytes) (u v : Option EventError) :
    (if StdEncoding.EncodeToString a = StdEncoding.EncodeToString b then u else v)
      = if a = b then u else v := by
  by_cases hab : a = b
  · rw [if_pos hab, if_pos (congrArg _ hab)]
  · rw [if_neg hab, if_neg (fun hh => hab (b64Encode_injective StdEncoding good_std _ _ hh))]

/-- `VerifyEventToken` under `tmB` on a token `CreateEventToken` issued under
`tmA`, up to its expiry: the outcome is decided by the two MACs of the payload
presented and the payload signed. -/
theorem verifyEventToken_create (tmA tmB : TokenManager) (t t' : Time) (p e payload payload' : Bytes)
    (h : t' ≤ t + 24 * Time.Hour) :
    VerifyEventToken tmB t' (CreateEventToken tmA t p e payload).1 payload'
      = if hmacSHA256 tmB.eventSecret payload' = hmacSHA256 tmA.eventSecret payload then none
        else some EventError.invalidPayloadHash :=
  (congrArg (fun tok => VerifyEventToken tmB t' tok payload')
      (createEventToken_fst tmA t p e payload)).trans
  ((verifyEventToken_fields tmB t' p e _ _ payload').trans
  ((check_not_after (Time.After t' (t + 24 * Time.Hour))
      (StdEncoding.EncodeToString (hmacSHA256 tmB.eventSecret payload'))
      (StdEncoding.EncodeToString (hmacSHA256 tmA.eventSecret payload))
      (decide_eq_false (not_lt.mpr h))).trans
    (ite_encodeToString _ _ _ _)))

/-- C1: an event token verifies against the payload it was issued for, on the
manager that issued it, at every time up to 24 hours after issuance (the lower
bound `t ≤ t'` of the claim is not needed). -/
theorem eventToken_roundtrip (tm : TokenManager) (publisherID eventType payload : Bytes)
    (t t' : Time) (h : t' ≤ t + 24 * Time.Hour) :
    VerifyEventToken tm t' (CreateEventToken tm t publisherID eventType payload).1 payload
      = none :=
  (verifyEventToken_create tm tm t t' publisherID eventType payload payload h).trans (if_pos rfl)

/-- C1 at a concrete input: a token issued at 2023-11-14T22:13:20Z, checked
exactly 24 hours later. -/
theorem eventToken_roundtrip_witness :
    (1700086400000000000 : Time) ≤ 1700000000000000000 + 24 * Time.Hour ∧
    VerifyEventToken (NewTokenManager (ascii "k1") (ascii "k2")) 1700086400000000000
      (CreateEventToken (NewTokenManager (ascii "k1") (ascii "k2")) 1700000000000000000
        (ascii "publisher-1") (ascii "greeting") (ascii "hi")).1 (ascii "hi") = none :=
  ⟨by decide,
    eventToken_roundtrip (NewTokenManager (ascii "k1") (ascii "k2")) (ascii "publisher-1")
      (ascii "greeting") (ascii "hi") 1700000000000000000 1700086400000000000 (by decide)⟩

theorem verifyEventToken_expired (tm : TokenManager) (n : Time) (tk : EventToken) (pl : Bytes) :
    VerifyEventToken tm n tk pl = some EventError.expired ↔ tk.ExpiresAt < n := by
  unfold VerifyEventToken
  by_cases h : tk.ExpiresAt < n
  · simp [Time.After, h]
  · simp only [Time.After, h, decide_False, Bool.false_eq_true, if_false, iff_false]
    split <;> simp

/-- C4: `VerifyEventToken` reports the expired error exactly when the clock is
strictly after `ExpiresAt`, whatever the payload and the hash; a fresh token is
not expired one second before the 24-hour mark and is expired one second after
it; and a token reported expired stays so at every later time. -/
theorem verifyEventToken_expired_iff (tm : TokenManager) (token : EventToken) (payload : Bytes)
    (now : Time) :
    (VerifyEventToken tm now token payload = some EventError.expired ↔ token.ExpiresAt < now)
    ∧ (∀ (t : Time) (p e pl pl' : Bytes),
        VerifyEventToken tm (t + 24 * Time.Hour - Time.Second)
          (CreateEventToken tm t p e pl).1 pl' ≠ some EventError.expired
        ∧ VerifyEventToken tm (t + 24 * Time.Hour + Time.Second)
          (CreateEventToken tm t p e pl).1 pl' = some EventError.expired)
    ∧ (∀ later : Time, now ≤ later →
        VerifyEventToken tm now token payload = some EventError.expired →
        VerifyEventToken tm later token payload = some EventError.expired) := by
  refine ⟨verifyEventToken_expired _ _ _ _, ?_, ?_⟩
  · intro t p e pl pl'
    constructor
    · rw [Ne, verifyEventToken_expired]
      simp [CreateEventToken, Time.Add, Time.Second]
    · rw [verifyEventToken_expired]
      simp [CreateEventToken, Time.Add, Time.Second]
  · intro later hl h
    rw [verifyEventToken_expired] at h ⊢
    exact lt_of_lt_of_le h hl

/-- C5: `CreateEventToken` returns a nil error and a record that carries the
publisher and event type given, expires 24 hours after the clock reading, and
whose hash is the standard base64 text of the HMAC-SHA256 of the payload under
`eventSecret`; the payload may be empty. -/
theorem createEventToken_post (tm : TokenManager) (publisherID eventType payload : Bytes)
    (now : Time) :
    (CreateEventToken tm now publisherID eventType payload).2 = none
    ∧ (CreateEventToken tm now publisherID eventType payload).1.PublisherID = publisherID
    ∧ (CreateEventToken tm now publisherID eventType payload).1.EventType = eventType
    ∧ (CreateEventToken tm now publisherID eventType payload).1.ExpiresAt
        = now + 24 * 3600 * 1000000000
    ∧ (CreateEventToken tm now publisherID eventType payload).1.Hash
        = StdEncoding.EncodeToString (hmac sha256Params tm.eventSecret payload) := by
  refine ⟨rfl, rfl, rfl, ?_, ?_⟩
  · simp [CreateEventToken, Time.Add, Time.Hour, Time.Second]
  · show _ = StdEncoding.EncodeToString (hmacSHA256 tm.eventSecret payload)
    exact createEventToken_hash tm now publisherID eventType payload

/-- C10: the check of an event token reads `ExpiresAt` and `Hash` only, the
hash `CreateEventToken` writes depends on `eventSecret` and the payload only,
and so an issued token still verifies after its publisher and event type are
replaced and its expiry is moved later. -/
theorem verifyEventToken_binds_payload_only (tm : TokenManager) (payload : Bytes) (now : Time) :
    (∀ tok1 tok2 : EventToken, tok1.ExpiresAt = tok2.ExpiresAt → tok1.Hash = tok2.Hash →
        VerifyEventToken tm now tok1 payload = VerifyEventToken tm now tok2 payload)
    ∧ (∀ (tm' : TokenManager) (t1 t2 : Time) (p1 e1 p2 e2 : Bytes),
        tm'.eventSecret = tm.eventSecret →
        (CreateEventToken tm t1 p1 e1 payload).1.Hash
          = (CreateEventToken tm' t2 p2 e2 payload).1.Hash)
    ∧ (∀ (t : Time) (p e p' e' : Bytes) (later : Time),
        VerifyEventToken tm now (CreateEventToken tm t p e payload).1 payload = none →
        (CreateEventToken tm t p e payload).1.ExpiresAt ≤ later →
        VerifyEventToken tm now
          { (CreateEventToken tm t p e payload).1 with
            PublisherID := p', EventType := e', ExpiresAt := later } payload = none) := by
  refine ⟨?_, ?_, ?_⟩
  · intro tok1 tok2 h1 h2
    simp [VerifyEventToken, h1, h2]
  · intro tm' t1 t2 p1 e1 p2 e2 h
    simp [CreateEventToken, payloadHash, h]
  · intro t p e p' e' later hv hl
    have hne : ¬ (t + 24 * Time.Hour < now) := by
      intro hlt
      simp [VerifyEventToken, CreateEventToken, Time.After, Time.Add, hlt] at hv
    have hle : ¬ (later < now) := not_lt.mpr (le_trans (not_lt.mp hne) hl)
    simp [VerifyEventToken, CreateEventToken, Time.After, hle]

/-! ## Trust domains -/

/-- C3, as the code has it: what decides whether a token of manager `tmA`
passes on manager `tmB` is the MAC under the one secret the check uses, not the
pair of secrets. An event token passes (up to its expiry) exactly when the
HMAC-SHA256 of the payload is the same under both `eventSecret`s, and fails
with the payload-hash error otherwise; an access token passes (inside its
life) exactly when the HS256 MAC of its signing string is the same under both
`jwtSecret`s, and fails with the signature error otherwise. -/
theorem domain_isolation_by_mac (tmA tmB : TokenManager) :
    (∀ (t t' : Time) (p e payload : Bytes), t' ≤ t + 24 * Time.Hour →
      (VerifyEventToken tmB t' (CreateEventToken tmA t p e payload).1 payload = none
        ↔ hmacSHA256 tmB.eventSecret payload = hmacSHA256 tmA.eventSecret payload)
      ∧ (VerifyEventToken tmB t' (CreateEventToken tmA t p e payload).1 payload
          = some EventError.invalidPayloadHash
        ↔ hmacSHA256 tmB.eventSecret payload ≠ hmacSHA256 tmA.eventSecret payload))
    ∧ (∀ (now1 now2 now : Time) (p : Bytes),
      (jwtClaims now1 now2 p).ExpiresAt.natAbs < 2 ^ 53 →
      (jwtClaims now1 now2 p).IssuedAt.natAbs < 2 ^ 53 →
      now2 ≤ now → now ≤ now1 + Time.Hour →
      ((VerifyJWT tmB now ((CreateJWT tmA now1 now2 p).getD [])).2 = none
        ↔ hmac sha256Params tmA.jwtSecret (SigningString SigningMethodHS256 (jwtClaims now1 now2 p))
          = hmac sha256Params tmB.jwtSecret
              (SigningString SigningMethodHS256 (jwtClaims now1 now2 p)))
      ∧ ((VerifyJWT tmB now ((CreateJWT tmA now1 now2 p).getD [])).2
          = some ⟨ValidationErrorSignatureInvalid⟩
        ↔ hmac sha256Params tmA.jwtSecret (SigningString SigningMethodHS256 (jwtClaims now1 now2 p))
          ≠ hmac sha256Params tmB.jwtSecret
              (SigningString SigningMethodHS256 (jwtClaims now1 now2 p)))) := by
  constructor
  · intro t t' p e payload h
    rw [verifyEventToken_create tmA tmB t t' p e payload payload h]
    by_cases hm : hmacSHA256 tmB.eventSecret payload = hmacSHA256 tmA.eventSecret payload
    · simp [hm]
    · simp [hm]
  · intro now1 now2 now p hexp hiat h2 hw
    rw [verifyJWT_createJWT tmA tmB now1 now2 now p hexp hiat h2 hw]
    by_cases hm : hmac sha256Params tmA.jwtSecret
        (SigningString SigningMethodHS256 (jwtClaims now1 now2 p))
        = hmac sha256Params tmB.jwtSecret
            (SigningString SigningMethodHS256 (jwtClaims now1 now2 p))
    · simp [hm]
    · simp [hm]

/-- C3 fails as stated: two managers that differ in `jwtSecret` and share
`eventSecret` are different trust domains, and the second accepts an event
token of the first. -/
theorem domain_isolation_counterexample :
    NewTokenManager (ascii "jwt-A") (ascii "shared") ≠ NewTokenManager (ascii "jwt-B") (ascii "shared")
    ∧ VerifyEventToken (NewTokenManager (ascii "jwt-B") (ascii "shared")) 1700000000000000000
        (CreateEventToken (NewTokenManager (ascii "jwt-A") (ascii "shared")) 1700000000000000000
          (ascii "publisher-1") (ascii "greeting") (ascii "hi")).1 (ascii "hi") = none :=
  ⟨by decide,
    (verifyEventToken_create (NewTokenManager (ascii "jwt-A") (ascii "shared"))
      (NewTokenManager (ascii "jwt-B") (ascii "shared")) 1700000000000000000 1700000000000000000
      (ascii "publisher-1") (ascii "greeting") (ascii "hi") (ascii "hi") (by decide)).trans
      (if_pos rfl)⟩

/-- The key block of HMAC pads a short key with zero bytes, so a key and the
same key followed by a zero byte give the same MAC. -/
theorem hmac_key_zero_pad (p : Sha2Params) (key msg : Bytes) (h : key.length < p.blockBytes) :
    hmac p (key ++ [0]) msg = hmac p key msg := by
  have hb : hmacKeyBlock p (key ++ [0]) = hmacKeyBlock p key := by
    have h1 : ¬ (key ++ [0]).length > p.blockBytes := by
      simp only [List.length_append, List.length_cons, List.length_nil]; omega
    have h2 : ¬ key.length > p.blockBytes := by omega
    have e1 : hmacKeyBlock p (key ++ [0])
        = (key ++ [0]) ++ List.replicate (p.blockBytes - (key ++ [0]).length) 0 := by
      unfold hmacKeyBlock
      simp only [h1, if_false]
    have e2 : hmacKeyBlock p key = key ++ List.replicate (p.blockBytes - key.length) 0 := by
      unfold hmacKeyBlock
      simp only [h2, if_false]
    have e3 : p.blockBytes - key.length = (p.blockBytes - (key ++ [0]).length) + 1 := by
      simp only [List.length_append, List.length_cons, List.length_nil]; omega
    rw [e1, e2, e3, List.replicate_succ]
    simp
  unfold hmac
  rw [hb]

/-- Two managers whose `eventSecret`s differ, one being the other followed by
a zero byte: the second accepts every unexpired event token of the first. -/
theorem event_secret_zero_pad (jwtA jwtB secret : Bytes) (hlen : secret.length < 64)
    (t t' : Time) (p e payload : Bytes) (h : t' ≤ t + 24 * Time.Hour) :
    VerifyEventToken (NewTokenManager jwtB (secret ++ [0])) t'
      (CreateEventToken (NewTokenManager jwtA secret) t p e payload).1 payload = none := by
  exact (verifyEventToken_create (NewTokenManager jwtA secret) (NewTokenManager jwtB (secret ++ [0]))
    t t' p e payload payload h).trans (if_pos (hmac_key_zero_pad sha256Params secret payload hlen))

/-! ## Access tokens -/

theorem verifyJWT_same_manager (tm : TokenManager) (now1 now2 now : Time) (p : Bytes)
    (hne : p ≠ [])
    (hexp : (jwtClaims now1 now2 p).ExpiresAt.natAbs < 2 ^ 53)
    (hiat : (jwtClaims now1 now2 p).IssuedAt.natAbs < 2 ^ 53)
    (h2 : now2 ≤ now) (hw : now ≤ now1 + Time.Hour) :
    (CreateJWT tm now1 now2 p).isSome = true
    ∧ (VerifyJWT tm now ((CreateJWT tm now1 now2 p).getD [])).2 = none
    ∧ (VerifyJWT tm now ((CreateJWT tm now1 now2 p).getD [])).1.map Token.Valid = some true
    ∧ (VerifyJWT tm now ((CreateJWT tm now1 now2 p).getD [])).1.bind Token.issuer
        = some (toValidUTF8 p.length p) := by
  rw [verifyJWT_createJWT tm tm now1 now2 now p hexp hiat h2 hw, if_pos rfl]
  refine ⟨by rw [createJWT_eq]; rfl, rfl, rfl, ?_⟩
  simp only [Option.some_bind]
  exact parsedToken_issuer now1 now2 p _ hne true

/-- C6, as the code has it: for a non-empty issuer that is well-formed UTF-8,
and clock readings whose Unix seconds the decoder's `float64` holds exactly
(below `2^53` in magnitude), `CreateJWT` returns a string that `VerifyJWT`
accepts on the same manager from the second clock reading of `CreateJWT` up to
one hour after the first, and the claims it returns carry the issuer. -/
theorem createJWT_verifyJWT_roundtrip (tm : TokenManager) (now1 now2 now : Time) (issuer : Bytes)
    (hne : issuer ≠ []) (hutf : utf8Valid issuer.length issuer = true)
    (hexp : (jwtClaims now1 now2 issuer).ExpiresAt.natAbs < 2 ^ 53)
    (hiat : (jwtClaims now1 now2 issuer).IssuedAt.natAbs < 2 ^ 53)
    (h2 : now2 ≤ now) (hw : now ≤ now1 + Time.Hour) :
    (CreateJWT tm now1 now2 issuer).isSome = true
    ∧ (VerifyJWT tm now ((CreateJWT tm now1 now2 issuer).getD [])).2 = none
    ∧ (VerifyJWT tm now ((CreateJWT tm now1 now2 issuer).getD [])).1.map Token.Valid = some true
    ∧ (VerifyJWT tm now ((CreateJWT tm now1 now2 issuer).getD [])).1.bind Token.issuer
        = some issuer := by
  have h := verifyJWT_same_manager tm now1 now2 now issuer hne hexp hiat h2 hw
  rw [toValidUTF8_of_valid _ _ (le_refl _) hutf] at h
  exact h

/-- C6 at a concrete input: the scenario of the specification, secret `k1` and
issuer `publisher-1`, verified half an hour after issuance. -/
theorem createJWT_verifyJWT_roundtrip_witness :
    (VerifyJWT (NewTokenManager (ascii "k1") (ascii "k2")) 1700001800000000000
        ((CreateJWT (NewTokenManager (ascii "k1") (ascii "k2")) 1700000000000000000
          1700000000000000500 (ascii "publisher-1")).getD [])).2 = none
    ∧ (VerifyJWT (NewTokenManager (ascii "k1") (ascii "k2")) 1700001800000000000
        ((CreateJWT (NewTokenManager (ascii "k1") (ascii "k2")) 1700000000000000000
          1700000000000000500 (ascii "publisher-1")).getD [])).1.bind Token.issuer
        = some (ascii "publisher-1") :=
  have h := createJWT_verifyJWT_roundtrip (NewTokenManager (ascii "k1") (ascii "k2"))
    1700000000000000000 1700000000000000500 1700001800000000000 (ascii "publisher-1")
    (by decide) (by decide) (by decide) (by decide) (by decide) (by decide)
  ⟨h.2.1, h.2.2.2⟩

/-- C6 fails as stated: for the one-byte issuer `0xFF`, which is no well-formed
UTF-8, the token verifies and the issuer it carries is U+FFFD, three other
bytes. -/
theorem createJWT_verifyJWT_issuer_counterexample :
    ([0xFF] : Bytes) ≠ []
    ∧ (VerifyJWT (NewTokenManager (ascii "k1") (ascii "k2")) 1700001800000000000
        ((CreateJWT (NewTokenManager (ascii "k1") (ascii "k2")) 1700000000000000000
          1700000000000000500 [0xFF]).getD [])).2 = none
    ∧ (VerifyJWT (NewTokenManager (ascii "k1") (ascii "k2")) 1700001800000000000
        ((CreateJWT (NewTokenManager (ascii "k1") (ascii "k2")) 1700000000000000000
          1700000000000000500 [0xFF]).getD [])).1.bind Token.issuer = some [0xEF, 0xBF, 0xBD]
    ∧ (VerifyJWT (NewTokenManager (ascii "k1") (ascii "k2")) 1700001800000000000
        ((CreateJWT (NewTokenManager (ascii "k1") (ascii "k2")) 1700000000000000000
          1700000000000000500 [0xFF]).getD [])).1.bind Token.issuer ≠ some [0xFF] := by
  have h := verifyJWT_same_manager (NewTokenManager (ascii "k1") (ascii "k2"))
    1700000000000000000 1700000000000000500 1700001800000000000 [0xFF]
    (by decide) (by decide) (by decide) (by decide) (by decide)
  have hv : toValidUTF8 ([0xFF] : Bytes).length [0xFF] = [0xEF, 0xBF, 0xBD] := by decide
  rw [hv] at h
  refine ⟨by decide, h.2.1, h.2.2.2, ?_⟩
  rw [h.2.2.2]
  decide

theorem unix_add_hour (a b : Int) (h : a / 1000000000 = b / 1000000000) :
    (a + 1 * (3600 * 1000000000)) / 1000000000 = b / 1000000000 + 3600 := by
  omega

/-- The claims `CreateJWT` signs when both clock readings fall in the same
second: the issuer given, `IssuedAt` that second, and `ExpiresAt` 3600 seconds
after it. -/
theorem jwtClaims_same_second (now1 now2 : Time) (publisherID : Bytes)
    (h : now1.Unix = now2.Unix) :
    (jwtClaims now1 now2 publisherID).Issuer = publisherID
    ∧ (jwtClaims now1 now2 publisherID).IssuedAt = now2.Unix
    ∧ (jwtClaims now1 now2 publisherID).ExpiresAt
        = (jwtClaims now1 now2 publisherID).IssuedAt + 3600 := by
  refine ⟨rfl, rfl, ?_⟩
  exact unix_add_hour now1 now2 h

/-- C7 fails on the code: with the first clock reading one nanosecond before a
second boundary and the second reading on it, `ExpiresAt` is 3599 seconds after
`IssuedAt`. -/
theorem jwtClaims_across_second :
    (jwtClaims 1999999999 2000000000 (ascii "publisher-1")).ExpiresAt = 3601
    ∧ (jwtClaims 1999999999 2000000000 (ascii "publisher-1")).IssuedAt = 2
    ∧ (jwtClaims 1999999999 2000000000 (ascii "publisher-1")).ExpiresAt
        ≠ (jwtClaims 1999999999 2000000000 (ascii "publisher-1")).IssuedAt + 3600 := by
  decide

theorem getSigningMethod_non_hmac (alg : Bytes) (h : alg ∉ hmacAlgNames) :
    GetSigningMethod alg = none ∨ GetSigningMethod alg = some (SigningMethod.other alg) := by
  simp only [hmacAlgNames, List.mem_cons, List.mem_singleton, List.not_mem_nil, or_false,
    not_or] at h
  obtain ⟨h1, h2, h3⟩ := h
  unfold GetSigningMethod
  simp only [beq_iff_eq, h1, h2, h3, if_false]
  split <;> simp

/-- C8: a token string whose header declares an algorithm outside the HMAC
family is never accepted: `VerifyJWT` returns an error and no token marked
valid, whatever the signature segment, the secrets and the clock; and the key
function returns a key, which then is `jwtSecret`, only for a token whose
method is an HMAC method. -/
theorem verifyJWT_rejects_non_hmac (tm : TokenManager) (now : Time) (tokenString alg : Bytes)
    (hdecl : declaredAlg tokenString = some alg) (hn : alg ∉ hmacAlgNames) :
    (VerifyJWT tm now tokenString).2 ≠ none
    ∧ (∀ tok, (VerifyJWT tm now tokenString).1 = some tok → tok.Valid = false)
    ∧ (∀ (token : Token) (key : Bytes), keyFunc tm token = some key →
        key = tm.jwtSecret ∧ ∃ name hash, token.Method = some (SigningMethod.HMAC name hash)) := by
  have main : ∃ t e, VerifyJWT tm now tokenString = (t, some e)
      ∧ ∀ tok, t = some tok → tok.Valid = false := by
    unfold declaredAlg at hdecl
    obtain ⟨header, hh, ha⟩ := Option.bind_eq_some.mp hdecl
    unfold VerifyJWT Parse ParseUnverified
    by_cases hlen : ((splitOn 0x2e tokenString).length != 3) = true
    · simp [hlen]
    · simp only [hlen, Bool.false_eq_true, if_false, hh, ha]
      cases hc : (DecodeSegment ((splitOn 0x2e tokenString).getD 1 [])).bind jsonDecodeMap with
      | none => simp
      | some claims =>
        rcases getSigningMethod_non_hmac alg hn with hg | hg
        · simp [hg]
        · simp [hg, keyFunc]
  obtain ⟨t, e, hv, hvalid⟩ := main
  refine ⟨?_, ?_, ?_⟩
  · rw [hv]; simp
  · intro tok htok
    rw [hv] at htok
    exact hvalid tok htok
  · intro token key hk
    unfold keyFunc at hk
    split at hk
    · rename_i name hash hm
      simp only [Option.some.injEq] at hk
      exact ⟨hk.symm, name, hash, hm⟩
    · simp at hk

/-- C8 at a concrete input: the unsigned token whose header declares the
algorithm `none` and whose claims are the empty object. -/
theorem verifyJWT_rejects_non_hmac_witness :
    declaredAlg (ascii "eyJhbGciOiJub25lIn0.e30.") = some (ascii "none")
    ∧ ascii "none" ∉ hmacAlgNames
    ∧ (VerifyJWT (NewTokenManager (ascii "k1") (ascii "k2")) 1700000000000000000
        (ascii "eyJhbGciOiJub25lIn0.e30.")).2 ≠ none :=
  ⟨by decide, by decide,
    (verifyJWT_rejects_non_hmac (NewTokenManager (ascii "k1") (ascii "k2")) 1700000000000000000
      (ascii "eyJhbGciOiJub25lIn0.e30.") (ascii "none") (by decide) (by decide)).1⟩

/-- C9 fails as stated: a token `CreateJWT` signed is accepted when the clock
reads exactly its `ExpiresAt`. -/
theorem verifyJWT_at_expiry_counterexample :
    (jwtClaims 1700000000000000000 1700000000000000500 (ascii "publisher-1")).ExpiresAt
      ≤ Time.Unix 1700003600000000000
    ∧ (VerifyJWT (NewTokenManager (ascii "k1") (ascii "k2")) 1700003600000000000
        ((CreateJWT (NewTokenManager (ascii "k1") (ascii "k2")) 1700000000000000000
          1700000000000000500 (ascii "publisher-1")).getD [])).2 = none := by
  refine ⟨by decide, ?_⟩
  rw [verifyJWT_createJWT _ _ _ _ _ _ (by decide) (by decide) (by decide) (by decide), if_pos rfl]

/-- C9 at a concrete input: the token of the specification's scenario, one
second after its `ExpiresAt`, is refused with the expired error. -/
theorem verifyJWT_expired_iff_witness :
    ∃ e, (VerifyJWT (NewTokenManager (ascii "k1") (ascii "k2")) 1700003601000000000
        ((CreateJWT (NewTokenManager (ascii "k1") (ascii "k2")) 1700000000000000000
          1700000000000000500 (ascii "publisher-1")).getD [])).2 = some e
      ∧ e.has ValidationErrorExpired = true := by
  have hc1 : (jwtClaims 1700000000000000000 1700000000000000500
      (ascii "publisher-1")).ExpiresAt.natAbs < 2 ^ 53 := by decide
  have hc2 : (jwtClaims 1700000000000000000 1700000000000000500
      (ascii "publisher-1")).IssuedAt.natAbs < 2 ^ 53 := by decide
  have hc3 : (jwtClaims 1700000000000000000 1700000000000000500
      (ascii "publisher-1")).NotBefore.natAbs < 2 ^ 53 := by decide
  have hparse := parseUnverified_signed _ hc1 hc2 hc3
    (EncodeSegment (hmac sha256Params (NewTokenManager (ascii "k1") (ascii "k2")).jwtSecret
      (SigningString SigningMethodHS256 (jwtClaims 1700000000000000000 1700000000000000500
        (ascii "publisher-1"))))) (encodeSegment_chars _)
  have hexp := claims_get_exp 1700000000000000000 1700000000000000500 (ascii "publisher-1")
  rw [if_neg (by decide)] at hexp
  rw [createJWT_eq, Option.getD_some]
  refine (verifyJWT_expired_iff (NewTokenManager (ascii "k1") (ascii "k2")) 1700003601000000000
    _ _ _ _ hparse ?_ hexp ?_).1.mpr ?_
  · unfold correctlySigned
    simp only [List.getD_cons_zero, List.getD_cons_succ]
    have hss : EncodeSegment (marshalHeader SigningMethodHS256) ++ [0x2e]
        ++ EncodeSegment (jwtClaims 1700000000000000000 1700000000000000500
            (ascii "publisher-1")).marshal
        = SigningString SigningMethodHS256 (jwtClaims 1700000000000000000 1700000000000000500
            (ascii "publisher-1")) := by
      simp [SigningString]
    rw [hss, verify_HS256]
    simp
  · rw [toInt64_int _ (by decide)]
    decide
  · rw [toInt64_int _ (by decide)]
    decide

/-! ## The library routines on published test vectors -/

set_option maxRecDepth 100000 in
/-- SHA-256 of `abc` (FIPS 180-4, appendix B.1). -/
theorem sha256_abc :
    sha256Params.digest (ascii "abc")
      = [0xba, 0x78, 0x16, 0xbf, 0x8f, 0x01, 0xcf, 0xea, 0x41, 0x41, 0x40, 0xde, 0x5d, 0xae, 0x22,
         0x23, 0xb0, 0x03, 0x61, 0xa3, 0x96, 0x17, 0x7a, 0x9c, 0xb4, 0x10, 0xff, 0x61, 0xf2, 0x00,
         0x15, 0xad] := by
  decide

set_option maxRecDepth 100000 in
set_option maxHeartbeats 2000000 in
/-- HMAC-SHA256, test case 2 of RFC 4231. -/
theorem hmacSHA256_rfc4231_case2 :
    hmacSHA256 (ascii "Jefe") (ascii "what do ya want for nothing?")
      = [0x5b, 0xdc, 0xc1, 0x46, 0xbf, 0x60, 0x75, 0x4e, 0x6a, 0x04, 0x24, 0x26, 0x08, 0x95, 0x75,
         0xc7, 0x5a, 0x00, 0x3f, 0x08, 0x9d, 0x27, 0x39, 0x83, 0x9d, 0xec, 0x58, 0xb9, 0x64, 0xec,
         0x38, 0x43] := by
  decide

/-- Base64 of `foobar` and of its prefixes (RFC 4648, section 10). -/
theorem b64Encode_rfc4648 :
    StdEncoding.EncodeToString (ascii "foobar") = ascii "Zm9vYmFy"
    ∧ StdEncoding.EncodeToString (ascii "fooba") = ascii "Zm9vYmE="
    ∧ StdEncoding.EncodeToString (ascii "foob") = ascii "Zm9vYg=="
    ∧ RawURLEncoding.EncodeToString (ascii "foob") = ascii "Zm9vYg"
    ∧ RawURLEncoding.EncodeToString [0xfb, 0xff] = ascii "-_8" := by
  decide

set_option maxRecDepth 100000 in
set_option maxHeartbeats 4000000 in
/-- The event-token scenario of the specification: secret `k2`, event type
`greeting`, the payload a one-member JSON object; the token verifies against
the payload and fails with the payload-hash error against the payload followed
by an exclamation mark. -/
theorem eventToken_scenario :
    VerifyEventToken (NewTokenManager (ascii "k1") (ascii "k2")) 1700000000000000000
      (CreateEventToken (NewTokenManager (ascii "k1") (ascii "k2")) 1700000000000000000
        (ascii "publisher-1") (ascii "greeting") (ascii "\x7b\"message\":\"hi\"\x7d")).1
      (ascii "\x7b\"message\":\"hi\"\x7d") = none
    ∧ VerifyEventToken (NewTokenManager (ascii "k1") (ascii "k2")) 1700000000000000000
      (CreateEventToken (NewTokenManager (ascii "k1") (ascii "k2")) 1700000000000000000
        (ascii "publisher-1") (ascii "greeting") (ascii "\x7b\"message\":\"hi\"\x7d")).1
      (ascii "\x7b\"message\":\"hi\"\x7d!") = some EventError.invalidPayloadHash := by
  constructor
  · rw [verifyEventToken_create _ _ _ _ _ _ _ _ (by decide)]
    exact if_pos rfl
  · rw [verifyEventToken_create _ _ _ _ _ _ _ _ (by decide)]
    apply if_neg
    decide

set_option maxRecDepth 100000 in
set_option maxHeartbeats 4000000 in
/-- The string `CreateJWT` returns for issuer `publisher-1` under the secret
`k1` at 2023-11-14T22:13:20Z: the three segments of an HS256 token. -/
theorem createJWT_scenario :
    CreateJWT (NewTokenManager (ascii "k1") (ascii "k2")) 1700000000123456789
      1700000000123459999 (ascii "publisher-1")
      = some (ascii ("eyJhbGciOiJIUzI1NiIsInR5cCI6IkpXVCJ9"
          ++ ".eyJleHAiOjE3MDAwMDM2MDAsImlhdCI6MTcwMDAwMDAwMCwiaXNzIjoicHVibGlzaGVyLTEifQ"
          ++ ".vArLRIcCIjHj0ESJkJ72Y4VxkgW7Dkj-xv74fze8RTw")) := by
  decide

set_option exponentiation.threshold 2000 in
set_option maxRecDepth 1000000 in
set_option maxHeartbeats 8000000 in
/-- Past `2^53` seconds the decoder's `float64` no longer holds every `exp`:
a token issued with `ExpiresAt = 2^53 + 1` is read back with `exp = 2^53` and
is refused as expired on the same manager one hour after issuance, inside its
life. -/
theorem createJWT_verifyJWT_float_range :
    (jwtClaims 9007199254737393000000000 9007199254737393000000000 (ascii "p")).ExpiresAt
      = 2 ^ 53 + 1
    ∧ (9007199254740993000000000 : Time) ≤ 9007199254737393000000000 + Time.Hour
    ∧ (VerifyJWT (NewTokenManager (ascii "k1") (ascii "k2")) 9007199254740993000000000
        ((CreateJWT (NewTokenManager (ascii "k1") (ascii "k2")) 9007199254737393000000000
          9007199254737393000000000 (ascii "p")).getD [])).2
      = some ⟨ValidationErrorExpired⟩ := by
  refine ⟨by decide, by decide, ?_⟩
  decide

end NatsPubsub
